import Mathlib

/-!
# sample-url-hasher: a verification development

Shallow embedding of `urlhasher/urlhasher.go` and of the exit path of
`cmd/sample-url-hasher/main.go`.

* `md5`: the streaming digest of Go's `crypto/md5` (`New`, `Write`, `Sum`) and
  the one-shot `md5.Sum`, which `doHTTPRequest` and the tests call.
* `io`: `io.Copy` from a reader (a list of `Read` results) into the digest.
* `urlhasher`: `doHTTPRequest`, `fetchIndividualURL`, `worker` and `Start`.
  The goroutines of `Start` are an interleaving transition system: `step`
  executes one scheduling event on a `State`, `run` a list of them.
* `cli`: the `OnDone` callback and the exit code of `main`.

## What the embedding assumes

* `crypto/md5`, `io`, `net/http` and `context` are Go's standard library. The
  digest and the copy loop are embedded from their implementation; what the
  HTTP stack does with a request is an input (`Fetch`), not constrained in
  any way, so it covers every status, body, split into reads, error, deadline
  and cancellation.
* Bytes are natural numbers; `uint32` and `uint64` arithmetic is reduced
  modulo `2^32` and `2^64`. The digest buffer `x[:nx]` is the list of its
  valid bytes.
* The goroutines interleave; an event is atomic. The statements of `Start`
  before the feed loop are one initial step: no worker can receive before the
  first send, which comes after them.
* A `select` with several ready cases picks any of them: a worker may receive
  a URL although the context is done.
* The caller's context being done is seen by the derived context at once, as
  with the contexts of the standard library. The event `cancel` is part of the
  system while the call runs.
* `OnDone` is not nil and returns; `doHTTPRequest` returns (the per-URL
  timeout bounds it). Time itself is not modelled: the timeout a per-URL
  context is derived with is recorded in the trace.
-/

namespace md5

/-- Arithmetic on `uint32` wraps modulo `2^32`. -/
def u32 (n : Nat) : Nat := n % 4294967296

/-- Arithmetic on `uint64` wraps modulo `2^64`. -/
def u64 (n : Nat) : Nat := n % 18446744073709551616

/-- Left rotation of a 32-bit word (`bits.RotateLeft32`). -/
def rotl32 (x k : Nat) : Nat := u32 ((x <<< k) ||| (x >>> (32 - k)))

/-- Bitwise complement of a 32-bit word (Go's unary `^`). -/
def not32 (x : Nat) : Nat := x ^^^ 4294967295

/-- Little-endian load of a 32-bit word at byte offset `4 * i`
(`binary.LittleEndian.Uint32`). -/
def le32At (q : List Nat) (i : Nat) : Nat :=
  q.getD (4 * i) 0 + q.getD (4 * i + 1) 0 * 256 + q.getD (4 * i + 2) 0 * 65536
    + q.getD (4 * i + 3) 0 * 16777216

/-- Little-endian store of a 32-bit word (`binary.LittleEndian.PutUint32`). -/
def putUint32 (v : Nat) : List Nat :=
  [v % 256, (v >>> 8) % 256, (v >>> 16) % 256, (v >>> 24) % 256]

/-- Little-endian store of a 64-bit word (`binary.LittleEndian.PutUint64`). -/
def putUint64 (v : Nat) : List Nat :=
  [v % 256, (v >>> 8) % 256, (v >>> 16) % 256, (v >>> 24) % 256,
   (v >>> 32) % 256, (v >>> 40) % 256, (v >>> 48) % 256, (v >>> 56) % 256]

/-- The additive constants of the 64 operations. -/
def K : List Nat :=
  [0xd76aa478, 0xe8c7b756, 0x242070db, 0xc1bdceee, 0xf57c0faf, 0x4787c62a, 0xa8304613, 0xfd469501,
   0x698098d8, 0x8b44f7af, 0xffff5bb1, 0x895cd7be, 0x6b901122, 0xfd987193, 0xa679438e, 0x49b40821,
   0xf61e2562, 0xc040b340, 0x265e5a51, 0xe9b6c7aa, 0xd62f105d, 0x02441453, 0xd8a1e681, 0xe7d3fbc8,
   0x21e1cde6, 0xc33707d6, 0xf4d50d87, 0x455a14ed, 0xa9e3e905, 0xfcefa3f8, 0x676f02d9, 0x8d2a4c8a,
   0xfffa3942, 0x8771f681, 0x6d9d6122, 0xfde5380c, 0xa4beea44, 0x4bdecfa9, 0xf6bb4b60, 0xbebfbc70,
   0x289b7ec6, 0xeaa127fa, 0xd4ef3085, 0x04881d05, 0xd9d4d039, 0xe6db99e5, 0x1fa27cf8, 0xc4ac5665,
   0xf4292244, 0x432aff97, 0xab9423a7, 0xfc93a039, 0x655b59c3, 0x8f0ccc92, 0xffeff47d, 0x85845dd1,
   0x6fa87e4f, 0xfe2ce6e0, 0xa3014314, 0x4e0811a1, 0xf7537e82, 0xbd3af235, 0x2ad7d2bb, 0xeb86d391]

/-- The rotation amounts of the 64 operations. -/
def R : List Nat :=
  [7, 12, 17, 22, 7, 12, 17, 22, 7, 12, 17, 22, 7, 12, 17, 22,
   5, 9, 14, 20, 5, 9, 14, 20, 5, 9, 14, 20, 5, 9, 14, 20,
   4, 11, 16, 23, 4, 11, 16, 23, 4, 11, 16, 23, 4, 11, 16, 23,
   6, 10, 15, 21, 6, 10, 15, 21, 6, 10, 15, 21, 6, 10, 15, 21]

/-- The four chaining words `s[0..3]` of the digest. -/
structure Words where
  a : Nat
  b : Nat
  c : Nat
  d : Nat
deriving DecidableEq

/-- The round function of operation `j`, as written in `blockGeneric`. -/
def F (j b c d : Nat) : Nat :=
  if j < 16 then ((c ^^^ d) &&& b) ^^^ d
  else if j < 32 then ((b ^^^ c) &&& d) ^^^ c
  else if j < 48 then b ^^^ c ^^^ d
  else c ^^^ (b ||| not32 d)

/-- The index of the message word used by operation `j`. -/
def G (j : Nat) : Nat :=
  if j < 16 then j
  else if j < 32 then (5 * j + 1) % 16
  else if j < 48 then (3 * j + 5) % 16
  else (7 * j) % 16

/-- One of the 64 operations of a block: the word updated is
`b + RotateLeft32(F + a + x[g] + K[j], R[j])`, and the four words rotate. -/
def op (q : List Nat) (w : Words) (j : Nat) : Words :=
  let t := u32 (F j w.b w.c w.d + w.a + le32At q (G j) + K.getD j 0)
  { a := w.d, b := u32 (w.b + rotl32 t (R.getD j 0)), c := w.b, d := w.c }

/-- One iteration of the loop of `blockGeneric`: the 64 operations on the
64-byte block `q`, then the saved state is added. -/
def blockStep (w : Words) (q : List Nat) : Words :=
  let r := (List.range 64).foldl (op q) w
  { a := u32 (r.a + w.a), b := u32 (r.b + w.b), c := u32 (r.c + w.c), d := u32 (r.d + w.d) }

/-- The loop of `blockGeneric` run `n` times over consecutive 64-byte blocks of `p`. -/
def blocks (w : Words) (p : List Nat) : Nat → Words
  | 0 => w
  | n + 1 => blocks (blockStep w (p.take 64)) (p.drop 64) n

/-- The function `block(d, p)`: every complete 64-byte block of `p`
(`for i := 0; i <= len(p)-BlockSize; i += BlockSize`). -/
def block (w : Words) (p : List Nat) : Words := blocks w p (p.length / 64)

/-- The type `md5.digest`: the chaining words `s`, the buffered bytes `x[:nx]`
(so `nx = x.length`) and the `uint64` byte count `len`. -/
structure digest where
  s : Words
  x : List Nat
  len : Nat
deriving DecidableEq

/-- The function `md5.New` (`digest.Reset`). -/
def New : digest :=
  { s := { a := 0x67452301, b := 0xefcdab89, c := 0x98badcfe, d := 0x10325476 }, x := [], len := 0 }

/-- The method `digest.Write`; it never fails. -/
def digest.Write (d : digest) (p : List Nat) : digest :=
  let len := u64 (d.len + p.length)
  -- if d.nx > 0 { n := copy(d.x[d.nx:], p); ... }
  let n := min (64 - d.x.length) p.length
  let x1 := if 0 < d.x.length then d.x ++ p.take n else d.x
  let p1 := if 0 < d.x.length then p.drop n else p
  let s1 := if 0 < d.x.length ∧ x1.length = 64 then block d.s x1 else d.s
  let x2 := if 0 < d.x.length ∧ x1.length = 64 then [] else x1
  -- if len(p) >= BlockSize { n := len(p) &^ (BlockSize - 1); block(d, p[:n]); p = p[n:] }
  let m := p1.length / 64 * 64
  let s2 := if 64 ≤ p1.length then block s1 (p1.take m) else s1
  let p2 := if 64 ≤ p1.length then p1.drop m else p1
  -- if len(p) > 0 { d.nx = copy(d.x[:], p) }
  let x3 := if 0 < p2.length then p2 else x2
  { s := s2, x := x3, len := len }

/-- The method `digest.checkSum`: pad with `0x80`, zeros and the bit length,
then store the four words little-endian. -/
def digest.checkSum (d : digest) : List Nat :=
  let pad := u64 (55 + 18446744073709551616 - u64 d.len) % 64
  let tmp := 128 :: (List.replicate pad 0 ++ putUint64 (u64 (d.len * 8)))
  let d1 := d.Write tmp
  putUint32 d1.s.a ++ putUint32 d1.s.b ++ putUint32 d1.s.c ++ putUint32 d1.s.d

/-- The method `digest.Sum`: append the checksum of a copy of `d` to `b`. -/
def digest.Sum (d : digest) (b : List Nat) : List Nat := b ++ d.checkSum

/-- The package function `md5.Sum(data)`: the MD5 checksum of `data`. -/
def Sum (data : List Nat) : List Nat := (New.Write data).checkSum

/-- The bytes left in the buffer after every complete block of `l` is hashed. -/
def rest (l : List Nat) : List Nat := l.drop (l.length / 64 * 64)

/-- The padding RFC 1321 appends to a message of `n` bytes: the byte `0x80`,
zero bytes until the length is 56 modulo 64, then the length in bits, modulo
`2^64`, as a 64-bit little-endian word. -/
def padding (n : Nat) : List Nat :=
  128 :: (List.replicate ((119 - n % 64) % 64) 0 ++ putUint64 (u64 (n * 8)))

/-- The MD5 message digest as RFC 1321 defines it: the padded message is
processed in 64-byte blocks from the initial state and the four words are
output little-endian. -/
def rfc1321 (m : List Nat) : List Nat :=
  let w := block New.s (m ++ padding m.length)
  putUint32 w.a ++ putUint32 w.b ++ putUint32 w.c ++ putUint32 w.d

/-- The representation invariant of a digest: fewer than 64 buffered bytes and
a byte count that fits `uint64`. -/
def digest.ok (d : digest) : Prop := d.x.length < 64 ∧ d.len < 18446744073709551616

end md5

/-- The bytes of a string (`[]byte(s)`, UTF-8). -/
def bytesOf (s : String) : List Nat := (s.toList.flatMap String.utf8EncodeChar).map UInt8.toNat

/-- The two lower-case hexadecimal digits of a byte. -/
def hexByte (b : Nat) : List Char :=
  [Nat.digitChar (b / 16 % 16), Nat.digitChar (b % 16)]

/-- The formatting verb `%x` of `fmt` on a byte slice. -/
def hex (bs : List Nat) : String := String.mk (bs.flatMap hexByte)

namespace io

/-- The error of one `Read` call that is not nil: `io.EOF` or another error. -/
inductive ReadErr where
  | EOF
  | failed (msg : String)
deriving DecidableEq

/-- What one call of `Read` returns: the bytes read and the error (nil is `none`). -/
structure ReadResult where
  data : List Nat
  err : Option ReadErr
deriving DecidableEq

/-- A reader is the results of its successive `Read` calls; once the list is
exhausted `Read` returns no bytes and `io.EOF`. -/
abbrev Reader := List ReadResult

/-- The function `io.Copy(dst, src)` with an MD5 digest as `dst`: every `Read`
that returns bytes is written to the digest, `io.EOF` ends the copy without an
error, any other error ends it and is returned. The digest's `Write` never
fails. Returns the digest after the copy and the error. -/
def Copy (dst : md5.digest) : Reader → md5.digest × Option String
  | [] => (dst, none)
  | r :: rs =>
    let dst1 := if 0 < r.data.length then dst.Write r.data else dst
    match r.err with
    | some .EOF => (dst1, none)
    | some (.failed msg) => (dst1, some msg)
    | none => Copy dst1 rs

/-- The bytes a reader delivers: the data of its `Read` results up to and
including the first one that carries an error. -/
def delivered : Reader → List Nat
  | [] => []
  | r :: rs =>
    match r.err with
    | some _ => r.data
    | none => r.data ++ delivered rs

/-- A reader that returns the given chunks, one per `Read`, then `io.EOF`. -/
def ofChunks (chunks : List (List Nat)) : Reader :=
  chunks.map fun c => { data := c, err := none }

end io

namespace urlhasher

/-- The constant `DefaultFetchTimeout = time.Second * 60`, in nanoseconds. -/
def DefaultFetchTimeout : Int := 1000000000 * 60

/-- The arguments of one `OnDone` invocation (the context apart): `hash` and
`err` are `none` for Go's nil. -/
structure Args where
  url : String
  hash : Option (List Nat)
  err : Option String
deriving DecidableEq

/-- The type `Hasher`. The callback `OnDone` maps its arguments to its effect,
of type `ω`. -/
structure Hasher (ω : Type) where
  Parallel : Int
  FetchTimeout : Int
  OnDone : Args → ω

/-- What the HTTP stack does with one request: `http.NewRequestWithContext`
fails, or `http.DefaultClient.Do` fails (transport error, deadline,
cancellation), or a response arrives with a status code and a body reader. -/
inductive Fetch where
  | badRequest (err : String)
  | noResponse (err : String)
  | response (status : Int) (body : io.Reader)
deriving DecidableEq

/-- The method `Hasher.doHTTPRequest`: the pair `(hash, err)` it returns. -/
def doHTTPRequest : Fetch → Option (List Nat) × Option String
  | .badRequest err => (none, some ("could not create http request: " ++ err))
  | .noResponse err => (none, some ("could not perform HTTP request: " ++ err))
  | .response _ body =>
    match io.Copy md5.New body with
    | (_, some err) => (none, some ("could hash HTTP response: " ++ err))
    | (hash, none) => (some (hash.Sum []), none)

/-- The method `Hasher.fetchIndividualURL`: the arguments of its one call of
`h.OnDone`. -/
def fetchIndividualURL (url : String) (t : Fetch) : Args :=
  let r := doHTTPRequest t
  { url := url, hash := r.1, err := r.2 }

/-- The error of a done context: `context.Canceled` or `context.DeadlineExceeded`. -/
inductive CtxErr where
  | Canceled
  | DeadlineExceeded
deriving DecidableEq

/-- A goroutine running `Hasher.worker`: blocked in the `select`, inside
`doHTTPRequest` for the URL at input position `pos`, inside `h.OnDone` for it,
or returned. The position is ghost state, the code passes the string only. -/
inductive Worker where
  | idle
  | fetching (pos : Nat) (url : String)
  | calling (pos : Nat) (url : String)
  | exited
deriving DecidableEq

/-- The goroutine that drains the channel: blocked on `<-ctx.Done()`, in the
`for range inputChannel` loop, or returned. -/
inductive Drainer where
  | waiting
  | draining
  | exited
deriving DecidableEq

/-- The goroutine that called `Start`: in the feed loop (about to send
`urls[next]`, or to close the channel when `next = len(urls)`), in `wg.Wait()`
with the channel closed, past `wg.Wait()`, returned with the value of
`ctx.Err()`, or panicked in `wg.Add` on a negative `Parallel`. -/
inductive Disp where
  | sending
  | waiting
  | waited
  | returned (err : Option CtxErr)
  | panicked
deriving DecidableEq

/-- The channel `inputChannel` is closed. -/
def Disp.closed : Disp → Bool
  | .waiting => true
  | .waited => true
  | .returned _ => true
  | _ => false

/-- The call of `Start` is over. -/
def Disp.over : Disp → Bool
  | .returned _ => true
  | .panicked => true
  | _ => false

/-- What an observer of the workers sees: `fetchIndividualURL` entered for the
URL at `pos` with the per-URL context derived with `timeout`; `h.OnDone`
invoked for it; that invocation returned. -/
inductive Obs where
  | fetch (pos : Nat) (url : String) (timeout : Int)
  | onDone (pos : Nat) (args : Args)
  | onDoneRet (pos : Nat)
deriving DecidableEq

/-- The state of one call of `Start`. `outer` is the error of the caller's
context once it is done during the call, `ctx` that of the context `Start`
derives with `context.WithCancel`; `next` counts the sends completed;
`absorbed` lists the input positions the drainer received. -/
structure State (ω : Type) where
  h : Hasher ω
  urls : List String
  outer : Option CtxErr
  ctx : Option CtxErr
  disp : Disp
  next : Nat
  workers : List Worker
  drainer : Drainer
  absorbed : List Nat
  trace : List Obs

/-- One scheduling step of the goroutines of `Start`, or of its environment. -/
inductive Event where
  /-- The caller's context becomes done while `Start` runs. -/
  | cancel (err : CtxErr)
  /-- Worker `w` takes `case url, ok := <-urls` with `ok`: it receives the URL
  the feed loop is sending and enters `fetchIndividualURL`. -/
  | recv (w : Nat)
  /-- The `doHTTPRequest` of worker `w` returns, `h.OnDone` is invoked. -/
  | fetched (w : Nat) (t : Fetch)
  /-- The `h.OnDone` invoked by worker `w` returns, `w` is back in its `select`. -/
  | done (w : Nat)
  /-- Worker `w` takes `case <-ctx.Done()` and returns. -/
  | stop (w : Nat)
  /-- Worker `w` receives from the closed channel (`!ok`) and returns. -/
  | eof (w : Nat)
  /-- The drainer passes `<-ctx.Done()`. -/
  | wake
  /-- The drainer receives the URL the feed loop is sending and drops it. -/
  | drain
  /-- The drainer's `for range` ends on the closed channel. -/
  | drainEnd
  /-- The feed loop is over: `close(inputChannel)`. -/
  | close
  /-- The call `wg.Wait()` returns: every worker has called `wg.Done()`. -/
  | wait
  /-- The statement `return ctx.Err()`, then the deferred `cancel()`. -/
  | ret
deriving DecidableEq

/-- The statement `if h.FetchTimeout == 0 { h.FetchTimeout = DefaultFetchTimeout }`
of `Start`, on the hasher `h` points to. -/
def withDefault {ω : Type} (h : Hasher ω) : Hasher ω :=
  if h.FetchTimeout = 0 then { h with FetchTimeout := DefaultFetchTimeout } else h

/-- The first statements of `Start`, up to the feed loop: the context is
derived, a zero `FetchTimeout` is replaced by the default, the channel is made,
the drainer and `h.Parallel` workers are spawned (`wg.Add` panics on a negative
count, and the deferred `cancel()` runs). -/
def Start {ω : Type} (h : Hasher ω) (urls : List String) : State ω :=
  let h1 := withDefault h
  if h1.Parallel < 0 then
    { h := h1, urls := urls, outer := none, ctx := some .Canceled, disp := .panicked, next := 0,
      workers := [], drainer := .waiting, absorbed := [], trace := [] }
  else
    { h := h1, urls := urls, outer := none, ctx := none, disp := .sending, next := 0,
      workers := List.replicate h1.Parallel.toNat .idle, drainer := .waiting, absorbed := [],
      trace := [] }

/-- The state after one event, `none` when the event cannot happen in `s`. -/
def step {ω : Type} (s : State ω) : Event → Option (State ω)
  | .cancel err =>
    if s.outer = none ∧ s.disp.over = false then
      some { s with outer := some err, ctx := some err }
    else none
  | .recv w =>
    match s.disp, s.urls[s.next]?, s.workers[w]? with
    | .sending, some url, some .idle =>
      some { s with next := s.next + 1, workers := s.workers.set w (.fetching s.next url),
                    trace := s.trace ++ [.fetch s.next url s.h.FetchTimeout] }
    | _, _, _ => none
  | .fetched w t =>
    match s.workers[w]? with
    | some (.fetching pos url) =>
      some { s with workers := s.workers.set w (.calling pos url),
                    trace := s.trace ++ [.onDone pos (fetchIndividualURL url t)] }
    | _ => none
  | .done w =>
    match s.workers[w]? with
    | some (.calling pos _) =>
      some { s with workers := s.workers.set w .idle, trace := s.trace ++ [.onDoneRet pos] }
    | _ => none
  | .stop w =>
    match s.ctx, s.workers[w]? with
    | some _, some .idle => some { s with workers := s.workers.set w .exited }
    | _, _ => none
  | .eof w =>
    match s.disp.closed, s.workers[w]? with
    | true, some .idle => some { s with workers := s.workers.set w .exited }
    | _, _ => none
  | .wake =>
    match s.ctx, s.drainer with
    | some _, .waiting => some { s with drainer := .draining }
    | _, _ => none
  | .drain =>
    match s.disp, s.urls[s.next]?, s.drainer with
    | .sending, some _, .draining =>
      some { s with next := s.next + 1, absorbed := s.absorbed ++ [s.next] }
    | _, _, _ => none
  | .drainEnd =>
    match s.disp.closed, s.drainer with
    | true, .draining => some { s with drainer := .exited }
    | _, _ => none
  | .close =>
    match s.disp with
    | .sending => if s.next = s.urls.length then some { s with disp := .waiting } else none
    | _ => none
  | .wait =>
    match s.disp with
    | .waiting =>
      if s.workers.all (fun w => decide (w = .exited)) then some { s with disp := .waited }
      else none
    | _ => none
  | .ret =>
    match s.disp with
    | .waited => some { s with disp := .returned s.ctx, ctx := some (s.ctx.getD .Canceled) }
    | _ => none

/-- The state after a list of events, `none` when one of them cannot happen. -/
def run {ω : Type} (s : State ω) : List Event → Option (State ω)
  | [] => some s
  | e :: es => (step s e).bind fun s1 => run s1 es

/-- The `OnDone` invocations of a trace, in invocation order. -/
def calls (tr : List Obs) : List Args :=
  tr.filterMap fun o => match o with
    | .onDone _ a => some a
    | _ => none

/-- The input positions of the `OnDone` invocations of a trace. -/
def invokedPos (tr : List Obs) : List Nat :=
  tr.filterMap fun o => match o with
    | .onDone p _ => some p
    | _ => none

/-- The input positions of the `OnDone` invocations that have returned. -/
def returnedPos (tr : List Obs) : List Nat :=
  tr.filterMap fun o => match o with
    | .onDoneRet p => some p
    | _ => none

/-- Worker `w` has taken a URL from the channel and its callback has not
returned yet. -/
def Worker.inFlight : Worker → Bool
  | .fetching _ _ => true
  | .calling _ _ => true
  | _ => false

/-- The number of fetches in flight. -/
def inFlight {ω : Type} (s : State ω) : Nat := (s.workers.filter Worker.inFlight).length

/-- The sum of `f` over the workers. -/
def wsum (f : Worker → Nat) (ws : List Worker) : Nat := (ws.map f).sum

/-- Whether the worker holds the URL at input position `p` (1 or 0). -/
def Worker.holds (p : Nat) : Worker → Nat
  | .fetching q _ => if q = p then 1 else 0
  | .calling q _ => if q = p then 1 else 0
  | _ => 0

/-- Whether the worker is inside `h.OnDone` for input position `p` (1 or 0). -/
def Worker.callingAt (p : Nat) : Worker → Nat
  | .calling q _ => if q = p then 1 else 0
  | _ => 0

/-- Whether the worker holds a URL (1 or 0). -/
def Worker.busy : Worker → Nat
  | .fetching _ _ => 1
  | .calling _ _ => 1
  | _ => 0

/-- The number of steps a worker has left at most, not counting new URLs. -/
def Worker.weight : Worker → Nat
  | .idle => 1
  | .fetching _ _ => 3
  | .calling _ _ => 2
  | .exited => 0

/-- The number of steps the drainer has left at most, not counting receives. -/
def Drainer.weight : Drainer → Nat
  | .waiting => 2
  | .draining => 1
  | .exited => 0

/-- The number of steps the caller of `Start` has left, not counting sends. -/
def Disp.weight : Disp → Nat
  | .sending => 3
  | .waiting => 2
  | .waited => 1
  | _ => 0

/-- A bound on the number of events that can still happen: every event
makes it smaller. -/
def fuel {ω : Type} (s : State ω) : Nat :=
  wsum Worker.weight s.workers + s.drainer.weight + s.disp.weight
    + 3 * (s.urls.length - s.next) + (if s.outer = none then 1 else 0)

/-- What the trace may contain for the URL list `urls` and the per-URL timeout
`timeout`: every entry is about the URL at its position. -/
def Obs.ok (urls : List String) (timeout : Int) : Obs → Prop
  | .fetch p u t => urls[p]? = some u ∧ t = timeout
  | .onDone p a => urls[p]? = some a.url
  | .onDoneRet _ => True

/-- The URL a worker holds is the one at its position. -/
def Worker.ok (urls : List String) : Worker → Prop
  | .fetching p u => urls[p]? = some u
  | .calling p u => urls[p]? = some u
  | _ => True

/-- The invariant of a call `h.Start(ctx, urls)` with `n` workers, where `h1` is
the hasher after the default timeout is set. -/
structure Inv {ω : Type} (h1 : Hasher ω) (urls : List String) (n : Nat) (s : State ω) : Prop where
  hH : s.h = h1
  hU : s.urls = urls
  hLen : s.workers.length = n
  hNext : s.next ≤ urls.length
  hNoPanic : s.disp ≠ .panicked
  hClosedNext : s.disp ≠ .sending → s.next = urls.length
  hRet : ∀ r, s.disp = .returned r → r = s.outer ∧ s.ctx ≠ none
  hCtx : (∀ r, s.disp ≠ .returned r) → s.ctx = s.outer
  hDrW : s.drainer ≠ .waiting → s.ctx ≠ none
  hAbs : s.outer = none → s.absorbed = []
  hDrE : s.drainer = .exited → s.disp.closed = true
  hWEx : Worker.exited ∈ s.workers → s.ctx ≠ none ∨ s.disp.closed = true
  hAll : (s.disp = .waited ∨ ∃ r, s.disp = .returned r) → ∀ w ∈ s.workers, w = .exited
  hAcc : ∀ p, s.absorbed.count p + wsum (Worker.holds p) s.workers + (returnedPos s.trace).count p
            = if p < s.next then 1 else 0
  hSent : s.next = s.absorbed.length + wsum Worker.busy s.workers + (returnedPos s.trace).length
  hInv : ∀ p, (invokedPos s.trace).count p
            = wsum (Worker.callingAt p) s.workers + (returnedPos s.trace).count p
  hWUrl : ∀ w ∈ s.workers, w.ok urls
  hTrUrl : ∀ o ∈ s.trace, o.ok urls h1.FetchTimeout

/-- What an entry of the trace is, the URL and the arguments apart. -/
inductive Phase where
  | fetch (pos : Nat)
  | onDone (pos : Nat)
  | onDoneRet (pos : Nat)
deriving DecidableEq

/-- The phase of an entry of the trace. -/
def Obs.phase : Obs → Phase
  | .fetch p _ _ => .fetch p
  | .onDone p _ => .onDone p
  | .onDoneRet p => .onDoneRet p

/-- The strictly sequential trace of the first `k` input positions: fetch,
callback, return of the callback, one position after the other. -/
def sequential (k : Nat) : List Phase :=
  (List.range k).flatMap fun i => [.fetch i, .onDone i, .onDoneRet i]

/-- The state of a run with one worker is sequential: the trace is the
sequential trace of the URLs sent so far, the last of them being in progress
when the worker holds it. -/
def Seq {ω : Type} (s : State ω) : Prop :=
  ∃ w, s.workers = [w] ∧
    match w with
    | .fetching p _ => p + 1 = s.next ∧ s.trace.map Obs.phase = sequential p ++ [.fetch p]
    | .calling p _ =>
      p + 1 = s.next ∧ s.trace.map Obs.phase = sequential p ++ [.fetch p, .onDone p]
    | _ => s.trace.map Obs.phase = sequential s.next

end urlhasher

namespace cli

/-- A line the command writes: to standard output or to standard error. -/
inductive Out where
  | stdout (line : String)
  | stderr (line : String)
deriving DecidableEq

/-- The `OnDone` callback of `main`: errors are logged to standard error (the
logger's time prefix is left out), results are printed as `<url> <hex>`. -/
def onDone (a : urlhasher.Args) : Out :=
  match a.err with
  | some err => .stderr ("Error, could not fetch url (" ++ a.url ++ "): " ++ err)
  | none => .stdout (a.url ++ " " ++ hex (a.hash.getD []) ++ "\n")

/-- The exit code of `main`, given the value of `--parallel`, the URLs
`getURLs()` returns and the schedule of the call of `Start`; a signal is the
event `cancel`. The result is `none` while `Start` has not returned. -/
def main (parallel : Int) (urls : List String) (es : List urlhasher.Event) : Option Nat :=
  if parallel ≤ 0 then some 1
  else
    match urlhasher.run
      (urlhasher.Start { Parallel := parallel, FetchTimeout := 0, OnDone := onDone } urls) es with
    | some s =>
      match s.disp with
      | .returned (some _) => some 1
      | .returned none => some 0
      | _ => none
    | none => none

end cli

/-! ## The streaming digest -/

namespace md5

theorem rest_length_lt (l : List Nat) : (rest l).length < 64 := by
  simp only [rest, List.length_drop]; omega

theorem blocks_append_of_le (k : Nat) : ∀ (w : Words) (l m : List Nat),
    k * 64 ≤ l.length → blocks w (l ++ m) k = blocks w l k := by
  induction k with
  | zero => intro w l m _; rfl
  | succ k ih =>
    intro w l m h
    have h64 : 64 ≤ l.length := by omega
    simp only [blocks]
    rw [List.take_append_of_le_length h64, List.drop_append_of_le_length h64]
    exact ih _ _ _ (by simp only [List.length_drop]; omega)

theorem blocks_add (j : Nat) : ∀ (w : Words) (l : List Nat) (k : Nat),
    blocks w l (j + k) = blocks (blocks w l j) (l.drop (j * 64)) k := by
  induction j with
  | zero => intro w l k; simp [blocks]
  | succ j ih =>
    intro w l k
    have e : j + 1 + k = (j + k) + 1 := by omega
    rw [e]
    simp only [blocks]
    rw [ih, List.drop_drop]
    have e2 : 64 + j * 64 = (j + 1) * 64 := by omega
    have e3 : j * 64 + 64 = (j + 1) * 64 := by omega
    simp only [e2, e3]

theorem block_append (w : Words) (l m : List Nat) :
    block w (l ++ m) = block (block w l) (rest l ++ m) := by
  have hj : l.length / 64 * 64 ≤ l.length := by omega
  have hn : (l ++ m).length / 64 = l.length / 64 + (rest l ++ m).length / 64 := by
    simp only [rest, List.length_append, List.length_drop]; omega
  unfold block
  rw [hn, blocks_add, blocks_append_of_le _ _ _ _ hj]
  simp only [rest, List.drop_append_of_le_length hj]

theorem rest_append (l m : List Nat) : rest (l ++ m) = rest (rest l ++ m) := by
  have hj : l.length / 64 * 64 ≤ l.length := by omega
  have hn : (l ++ m).length / 64 * 64
      = l.length / 64 * 64 + (rest l ++ m).length / 64 * 64 := by
    simp only [rest, List.length_append, List.length_drop]; omega
  unfold rest at hn ⊢
  rw [hn, ← List.drop_append_of_le_length hj, List.drop_drop]


theorem block_of_short (w : Words) (l : List Nat) (h : l.length < 64) : block w l = w := by
  have e : l.length / 64 = 0 := by omega
  simp [block, e, blocks]

theorem rest_of_short (l : List Nat) (h : l.length < 64) : rest l = l := by
  have e : l.length / 64 = 0 := by omega
  simp [rest, e]

theorem block_take (w : Words) (p : List Nat) :
    block w (p.take (p.length / 64 * 64)) = block w p := by
  have hm : p.length / 64 * 64 ≤ p.length := by omega
  have hl : (p.take (p.length / 64 * 64)).length = p.length / 64 * 64 := by
    simp only [List.length_take]; omega
  have hk : (p.take (p.length / 64 * 64)).length / 64 = p.length / 64 := by
    rw [hl]; omega
  conv_rhs => rw [← List.take_append_drop (p.length / 64 * 64) p]
  unfold block
  rw [hk]
  have hk2 : (p.take (p.length / 64 * 64) ++ p.drop (p.length / 64 * 64)).length / 64
      = p.length / 64 := by
    rw [List.take_append_drop]
  rw [hk2, blocks_append_of_le _ _ _ _ (by rw [hl])]

/-- The canonical form of `Write`: every complete block of the buffered bytes
followed by `p` is hashed, the remainder stays in the buffer. -/
theorem Write_eq (d : digest) (p : List Nat) (hx : d.x.length < 64) :
    d.Write p = { s := block d.s (d.x ++ p), x := rest (d.x ++ p), len := u64 (d.len + p.length) } := by
  have tail : ∀ (s1 : Words) (p1 : List Nat),
      (if 64 ≤ p1.length then block s1 (p1.take (p1.length / 64 * 64)) else s1) = block s1 p1 := by
    intro s1 p1
    by_cases h : 64 ≤ p1.length
    · rw [if_pos h, block_take]
    · rw [if_neg h, block_of_short _ _ (by omega)]
  have tailx : ∀ (p1 : List Nat),
      (if 64 ≤ p1.length then p1.drop (p1.length / 64 * 64) else p1) = rest p1 := by
    intro p1
    by_cases h : 64 ≤ p1.length
    · rw [if_pos h]; rfl
    · rw [if_neg h, rest_of_short _ (by omega)]
  have nil_or : ∀ (q : List Nat), (if 0 < q.length then q else []) = q := by
    intro q; cases q <;> simp
  by_cases h0 : 0 < d.x.length
  · by_cases hfull : 64 ≤ d.x.length + p.length
    · -- the buffer fills up: one block from the buffer, then the blocks of the rest of p
      have hn : min (64 - d.x.length) p.length = 64 - d.x.length := by omega
      have hlen : (d.x ++ p.take (64 - d.x.length)).length = 64 := by
        simp only [List.length_append, List.length_take]; omega
      have hsplit : d.x ++ p = (d.x ++ p.take (64 - d.x.length)) ++ p.drop (64 - d.x.length) := by
        rw [List.append_assoc, List.take_append_drop]
      have hrest : rest (d.x ++ p.take (64 - d.x.length)) = [] := by
        simp [rest, hlen]
      have hs : block d.s (d.x ++ p)
          = block (block d.s (d.x ++ p.take (64 - d.x.length))) (p.drop (64 - d.x.length)) := by
        rw [hsplit, block_append, hrest, List.nil_append]
      have hr : rest (d.x ++ p) = rest (p.drop (64 - d.x.length)) := by
        rw [hsplit, rest_append, hrest, List.nil_append]
      rw [hs, hr]
      simp only [digest.Write, hn, if_pos h0, hlen, and_self, and_true, if_true, tail, tailx,
        nil_or]
    · -- the buffer does not fill up
      have hn : min (64 - d.x.length) p.length = p.length := by omega
      have hlen : ¬ (d.x ++ p).length = 64 := by
        simp only [List.length_append]; omega
      have hshort : (d.x ++ p).length < 64 := by
        simp only [List.length_append]; omega
      rw [block_of_short _ _ hshort, rest_of_short _ hshort]
      have hne : ¬ (d.x.length + p.length = 64) := by omega
      simp [digest.Write, hn, h0, hne]
  · have hnil : d.x = [] := by
      cases hd : d.x with
      | nil => rfl
      | cons a t => rw [hd] at h0; simp at h0
    simp only [digest.Write, hnil, List.length_nil, Nat.lt_irrefl, if_false, false_and, tail, tailx,
      nil_or, List.nil_append]

theorem Write_buffer_lt (d : digest) (p : List Nat) (hx : d.x.length < 64) :
    (d.Write p).x.length < 64 := by
  rw [Write_eq d p hx]; exact rest_length_lt _

/-- Writing `a` and then `b` is writing `a ++ b`. -/
theorem Write_Write (d : digest) (a b : List Nat) (hx : d.x.length < 64) :
    (d.Write a).Write b = d.Write (a ++ b) := by
  rw [Write_eq (d.Write a) b (Write_buffer_lt d a hx), Write_eq d a hx, Write_eq d (a ++ b) hx]
  simp only [← List.append_assoc]
  rw [← block_append, ← rest_append]
  simp only [u64, List.length_append]
  congr 1
  omega

theorem checkSum_length (d : digest) : d.checkSum.length = 16 := by
  simp [digest.checkSum, putUint32]

/-- The one-shot `md5.Sum` of the package computes the digest of RFC 1321. -/
theorem Sum_eq_rfc1321 (m : List Nat) : Sum m = rfc1321 m := by
  have hw : New.Write m = { s := block New.s m, x := rest m, len := u64 m.length } := by
    rw [Write_eq New m (by simp [New])]
    simp [New]
  have hpad : u64 (55 + 18446744073709551616 - u64 (u64 m.length)) % 64
      = (119 - m.length % 64) % 64 := by
    simp only [u64]; omega
  have hbits : u64 (u64 m.length * 8) = u64 (m.length * 8) := by
    simp only [u64]; omega
  have htmp : (128 :: (List.replicate (u64 (55 + 18446744073709551616 - u64 (u64 m.length)) % 64) 0
      ++ putUint64 (u64 (u64 m.length * 8)))) = padding m.length := by
    rw [hpad, hbits]; rfl
  simp only [Sum, rfc1321, digest.checkSum, hw, htmp]
  rw [Write_eq _ _ (rest_length_lt m)]
  simp only [← block_append]

set_option maxRecDepth 100000 in
/-- The test suite of RFC 1321, appendix A.5. -/
theorem rfc1321_test_suite :
    hex (rfc1321 (bytesOf "")) = "d41d8cd98f00b204e9800998ecf8427e"
    ∧ hex (rfc1321 (bytesOf "a")) = "0cc175b9c0f1b6a831c399e269772661"
    ∧ hex (rfc1321 (bytesOf "abc")) = "900150983cd24fb0d6963f7d28e17f72"
    ∧ hex (rfc1321 (bytesOf "message digest")) = "f96b697d7cb7938d525a2f31aaf161d0"
    ∧ hex (rfc1321 (bytesOf "abcdefghijklmnopqrstuvwxyz")) = "c3fcd3d76192e4007dfb496cca67e13b"
    ∧ hex (rfc1321 (bytesOf "ABCDEFGHIJKLMNOPQRSTUVWXYZabcdefghijklmnopqrstuvwxyz0123456789"))
        = "d174ab98d277d9f5a5611c2c9f419d9f"
    ∧ hex (rfc1321 (bytesOf
        "12345678901234567890123456789012345678901234567890123456789012345678901234567890"))
        = "57edf4a22be3c955ac49da2e2107b67a" := by
  decide!

end md5

/-! ## Copying the response body into the digest -/

namespace md5

theorem New_ok : New.ok := by
  constructor <;> simp [New]

theorem Write_ok (d : digest) (p : List Nat) (hd : d.ok) : (d.Write p).ok := by
  refine ⟨Write_buffer_lt d p hd.1, ?_⟩
  rw [Write_eq d p hd.1]
  simp only [u64]
  omega

theorem Write_nil (d : digest) (hd : d.ok) : d.Write [] = d := by
  obtain ⟨hx, hl⟩ := hd
  rw [Write_eq d [] hx, List.append_nil, block_of_short _ _ hx, rest_of_short _ hx]
  have e : u64 (d.len + ([] : List Nat).length) = d.len := by
    simp only [u64, List.length_nil]; omega
  rw [e]

end md5

namespace io

theorem Copy_eq_Write : ∀ (rd : Reader) (d : md5.digest), d.ok → (Copy d rd).2 = none →
    (Copy d rd).1 = d.Write (delivered rd) := by
  intro rd
  induction rd with
  | nil => intro d hd _; simp [Copy, delivered, md5.Write_nil d hd]
  | cons r rs ih =>
    intro d hd herr
    have hw : (if 0 < r.data.length then d.Write r.data else d) = d.Write r.data := by
      by_cases h : 0 < r.data.length
      · rw [if_pos h]
      · have hnil : r.data = [] := by
          cases hr : r.data with
          | nil => rfl
          | cons a t => rw [hr] at h; simp at h
        rw [if_neg h, hnil, md5.Write_nil d hd]
    cases hr : r.err with
    | none =>
      simp only [Copy, delivered, hr, hw] at herr ⊢
      rw [ih _ (md5.Write_ok d _ hd) herr, md5.Write_Write d _ _ hd.1]
    | some e =>
      cases e with
      | EOF => simp only [Copy, delivered, hr, hw]
      | failed msg => simp [Copy, hr] at herr

theorem delivered_ofChunks (chunks : List (List Nat)) :
    delivered (ofChunks chunks) = chunks.flatten := by
  induction chunks with
  | nil => rfl
  | cons c cs ih =>
    have : delivered (ofChunks (c :: cs)) = c ++ delivered (ofChunks cs) := rfl
    rw [this, ih, List.flatten_cons]

theorem Copy_ofChunks (chunks : List (List Nat)) :
    ∀ d : md5.digest, (Copy d (ofChunks chunks)).2 = none := by
  induction chunks with
  | nil => intro d; rfl
  | cons c cs ih => intro d; exact ih _

end io

namespace urlhasher

theorem doHTTPRequest_of_copied (status : Int) (body : io.Reader)
    (h : (io.Copy md5.New body).2 = none) :
    doHTTPRequest (.response status body) = (some (md5.Sum (io.delivered body)), none) := by
  have hc := io.Copy_eq_Write body md5.New md5.New_ok h
  cases hcp : io.Copy md5.New body with
  | mk dg e =>
    rw [hcp] at h hc
    simp only at h hc
    subst h
    simp only [doHTTPRequest, hcp, md5.digest.Sum, md5.Sum, List.nil_append, hc]

theorem doHTTPRequest_of_failed (status : Int) (body : io.Reader) (msg : String)
    (h : (io.Copy md5.New body).2 = some msg) :
    doHTTPRequest (.response status body) = (none, some ("could hash HTTP response: " ++ msg)) := by
  cases hcp : io.Copy md5.New body with
  | mk dg e =>
    rw [hcp] at h
    simp only at h
    subst h
    simp only [doHTTPRequest, hcp]

/-- C2: whenever the transport completes and the body is read without error,
whatever the status code and however the body bytes are split over the `Read`
calls of the streaming copy, `doHTTPRequest` returns the MD5 checksum of the
concatenation of the body bytes, which is their RFC 1321 digest, with a nil
error, and `fetchIndividualURL` passes exactly that to `OnDone`; the sample
payload of the test has the checksum `6330d6a09e56387e4dd59502418fa642`. -/
theorem doHTTPRequest_hashes_body (url : String) (status : Int) (body : io.Reader)
    (h : (io.Copy md5.New body).2 = none) :
    doHTTPRequest (.response status body) = (some (md5.Sum (io.delivered body)), none)
    ∧ fetchIndividualURL url (.response status body)
        = { url := url, hash := some (md5.Sum (io.delivered body)), err := none }
    ∧ (∀ chunks : List (List Nat), io.delivered body = chunks.flatten →
        doHTTPRequest (.response status (io.ofChunks chunks))
          = doHTTPRequest (.response status body))
    ∧ md5.Sum (io.delivered body) = md5.rfc1321 (io.delivered body)
    ∧ hex (md5.Sum (bytesOf "https://www.youtube.com/watch?v=dQw4w9WgXcQ\n"))
        = "6330d6a09e56387e4dd59502418fa642" := by
  have h1 := doHTTPRequest_of_copied status body h
  refine ⟨h1, ?_, ?_, md5.Sum_eq_rfc1321 _, ?_⟩
  · simp only [fetchIndividualURL, h1]
  · intro chunks hj
    rw [h1, doHTTPRequest_of_copied status _ (io.Copy_ofChunks chunks _),
      io.delivered_ofChunks, hj]
  · set_option maxRecDepth 100000 in decide!

set_option maxRecDepth 100000 in
/-- A 404 response whose body arrives in two chunks, the second together with
`io.EOF`: the callback gets the checksum of the whole payload. -/
theorem doHTTPRequest_hashes_body_witness :
    (io.Copy md5.New
        [{ data := bytesOf "https://www.youtube.com/wat", err := none },
         { data := bytesOf "ch?v=dQw4w9WgXcQ\n", err := some .EOF }]).2 = none
    ∧ (fetchIndividualURL "http://127.0.0.1:8080" (.response 404
        [{ data := bytesOf "https://www.youtube.com/wat", err := none },
         { data := bytesOf "ch?v=dQw4w9WgXcQ\n", err := some .EOF }])).hash.map hex
        = some "6330d6a09e56387e4dd59502418fa642" := by
  refine ⟨by decide!, ?_⟩
  have h := (doHTTPRequest_hashes_body "http://127.0.0.1:8080" 404
    [{ data := bytesOf "https://www.youtube.com/wat", err := none },
     { data := bytesOf "ch?v=dQw4w9WgXcQ\n", err := some .EOF }] (by decide!)).2.1
  rw [h]
  decide!

/-- C3: the one `OnDone` invocation of `fetchIndividualURL` gets either a nil
error and a non-empty hash of exactly 16 bytes, or a non-nil error and a nil
hash; the second shape is what a request-construction failure, a transport
failure and a read error during the copy produce. -/
theorem fetchIndividualURL_hash_xor_err (url : String) (t : Fetch) :
    (fetchIndividualURL url t).url = url
    ∧ (((fetchIndividualURL url t).err = none
          ∧ ∃ hash, (fetchIndividualURL url t).hash = some hash ∧ hash.length = 16 ∧ hash ≠ [])
        ∨ ((fetchIndividualURL url t).err ≠ none ∧ (fetchIndividualURL url t).hash = none))
    ∧ (∀ e, t = .badRequest e →
        (fetchIndividualURL url t).hash = none ∧ (fetchIndividualURL url t).err ≠ none)
    ∧ (∀ e, t = .noResponse e →
        (fetchIndividualURL url t).hash = none ∧ (fetchIndividualURL url t).err ≠ none)
    ∧ (∀ status body e, t = .response status body → (io.Copy md5.New body).2 = some e →
        (fetchIndividualURL url t).hash = none ∧ (fetchIndividualURL url t).err ≠ none) := by
  refine ⟨rfl, ?_, ?_, ?_, ?_⟩
  · cases t with
    | badRequest e => right; simp [fetchIndividualURL, doHTTPRequest]
    | noResponse e => right; simp [fetchIndividualURL, doHTTPRequest]
    | response status body =>
      cases hcp : (io.Copy md5.New body).2 with
      | none =>
        left
        have h1 := doHTTPRequest_of_copied status body hcp
        refine ⟨by simp [fetchIndividualURL, h1], md5.Sum (io.delivered body),
          by simp [fetchIndividualURL, h1], ?_, ?_⟩
        · exact md5.checkSum_length _
        · intro hnil
          have := md5.checkSum_length (md5.New.Write (io.delivered body))
          rw [show (md5.New.Write (io.delivered body)).checkSum = [] from hnil] at this
          simp at this
      | some msg =>
        right
        have h1 := doHTTPRequest_of_failed status body msg hcp
        simp [fetchIndividualURL, h1]
  · intro e he; subst he; simp [fetchIndividualURL, doHTTPRequest]
  · intro e he; subst he; simp [fetchIndividualURL, doHTTPRequest]
  · intro status body e he hcp
    subst he
    have h1 := doHTTPRequest_of_failed status body e hcp
    simp [fetchIndividualURL, h1]

end urlhasher

/-! ## The goroutines of `Start` -/

namespace urlhasher

variable {ω : Type}

theorem wsum_set (f : Worker → Nat) : ∀ (ws : List Worker) (i : Nat) (a b : Worker),
    ws[i]? = some a → wsum f (ws.set i b) + f a = wsum f ws + f b := by
  intro ws
  induction ws with
  | nil => intro i a b h; simp at h
  | cons x xs ih =>
    intro i a b h
    cases i with
    | zero =>
      simp only [List.getElem?_cons_zero, Option.some.injEq] at h
      subst h
      simp only [wsum, List.set_cons_zero, List.map_cons, List.sum_cons]
      omega
    | succ j =>
      simp only [List.getElem?_cons_succ] at h
      have := ih j a b h
      simp only [wsum, List.set_cons_succ, List.map_cons, List.sum_cons] at this ⊢
      omega

theorem mem_of_getElem? {ws : List Worker} {i : Nat} {a : Worker} (h : ws[i]? = some a) :
    a ∈ ws := by
  rw [List.getElem?_eq_some] at h
  obtain ⟨hi, rfl⟩ := h
  exact List.getElem_mem hi

@[simp] theorem invokedPos_append (a b : List Obs) :
    invokedPos (a ++ b) = invokedPos a ++ invokedPos b := by
  simp [invokedPos, List.filterMap_append]

@[simp] theorem returnedPos_append (a b : List Obs) :
    returnedPos (a ++ b) = returnedPos a ++ returnedPos b := by
  simp [returnedPos, List.filterMap_append]

@[simp] theorem calls_append (a b : List Obs) : calls (a ++ b) = calls a ++ calls b := by
  simp [calls, List.filterMap_append]

theorem Start_inv (h : Hasher ω) (urls : List String) (hp : 0 ≤ h.Parallel) :
    Inv (withDefault h) urls h.Parallel.toNat (Start h urls) := by
  have hpar : (withDefault h).Parallel = h.Parallel := by
    unfold withDefault; split <;> rfl
  have hnot : ¬ (withDefault h).Parallel < 0 := by rw [hpar]; omega
  have hs : Start h urls =
      { h := withDefault h, urls := urls, outer := none, ctx := none, disp := .sending, next := 0,
        workers := List.replicate h.Parallel.toNat .idle, drainer := .waiting, absorbed := [],
        trace := [] } := by
    have hn2 : ¬ h.Parallel < 0 := by omega
    simp only [Start, hpar, if_neg hn2]
  rw [hs]
  have hw0 : ∀ (f : Worker → Nat) (k : Nat), f .idle = 0 → wsum f (List.replicate k .idle) = 0 := by
    intro f k hf
    induction k with
    | zero => rfl
    | succ k ih => simp only [wsum, List.replicate_succ, List.map_cons, List.sum_cons] at ih ⊢; omega
  refine
    { hH := rfl, hU := rfl, hLen := by simp, hNext := Nat.zero_le _, hNoPanic := by simp,
      hClosedNext := by simp, hRet := by simp, hCtx := by simp, hDrW := by simp, hAbs := by simp,
      hDrE := by simp, hWEx := ?_, hAll := by simp, hAcc := ?_, hSent := ?_, hInv := ?_,
      hWUrl := ?_, hTrUrl := by simp }
  · intro hm
    have := List.eq_of_mem_replicate hm
    cases this
  · intro p
    simp [hw0 (Worker.holds p) _ rfl, returnedPos]
  · simp [hw0 Worker.busy _ rfl, returnedPos]
  · intro p
    simp [hw0 (Worker.callingAt p) _ rfl, returnedPos, invokedPos]
  · intro w hm
    have := List.eq_of_mem_replicate hm
    subst this
    trivial

theorem lt_of_getElem? {urls : List String} {i : Nat} {u : String} (h : urls[i]? = some u) :
    i < urls.length := by
  rw [List.getElem?_eq_some] at h
  exact h.1

theorem count_snoc (l : List Nat) (q p : Nat) :
    (l ++ [q]).count p = l.count p + if q = p then 1 else 0 := by
  rw [List.count_append, List.count_cons, List.count_nil]
  by_cases h : q = p <;> simp [h]

theorem step_inv {h1 : Hasher ω} {urls : List String} {n : Nat} {s s1 : State ω} (e : Event)
    (inv : Inv h1 urls n s) (hs : step s e = some s1) : Inv h1 urls n s1 := by
  have hU := inv.hU
  cases e with
  | cancel err =>
    simp only [step] at hs
    split at hs
    · rename_i hc
      cases hs
      obtain ⟨ho, hov⟩ := hc
      refine
        { hH := inv.hH, hU := inv.hU, hLen := inv.hLen, hNext := inv.hNext,
          hNoPanic := inv.hNoPanic, hClosedNext := inv.hClosedNext, hRet := ?_,
          hCtx := fun _ => rfl, hDrW := fun _ => (by simp), hAbs := (by simp),
          hDrE := inv.hDrE, hWEx := fun _ => Or.inl (by simp), hAll := inv.hAll,
          hAcc := inv.hAcc, hSent := inv.hSent, hInv := inv.hInv, hWUrl := inv.hWUrl, hTrUrl := inv.hTrUrl }
      intro r hr
      have : s.disp = .returned r := hr
      rw [this] at hov; cases hov
    · cases hs
  | recv w =>
    simp only [step] at hs
    split at hs
    · rename_i url hd hu hw
      cases hs
      have hlt : s.next < urls.length := by rw [← hU]; exact lt_of_getElem? hu
      refine
        { hH := inv.hH, hU := inv.hU, hLen := (by simp [inv.hLen]), hNext := hlt,
          hNoPanic := inv.hNoPanic, hClosedNext := fun hne => absurd hd hne, hRet := ?_,
          hCtx := inv.hCtx, hDrW := inv.hDrW, hAbs := inv.hAbs, hDrE := inv.hDrE,
          hWEx := ?_, hAll := ?_, hAcc := ?_, hSent := ?_, hInv := ?_, hWUrl := ?_, hTrUrl := ?_ }
      · intro r hr
        have : s.disp = .returned r := hr
        rw [hd] at this; cases this
      · intro hm
        rcases List.mem_or_eq_of_mem_set hm with hm | hm
        · exact inv.hWEx hm
        · cases hm
      · intro hc
        have hc' : s.disp = .waited ∨ ∃ r, s.disp = .returned r := hc
        rw [hd] at hc'
        rcases hc' with hc' | ⟨r, hc'⟩ <;> cases hc'
      · intro p
        have h1 := inv.hAcc p
        have h2 := wsum_set (Worker.holds p) _ _ _ (.fetching s.next url) hw
        simp only [Worker.holds] at h2
        simp only [returnedPos_append]
        have h3 : returnedPos [Obs.fetch s.next url s.h.FetchTimeout] = [] := rfl
        rw [h3, List.append_nil]
        split_ifs at h1 h2 ⊢ <;> omega
      · have h1 := inv.hSent
        have h2 := wsum_set Worker.busy _ _ _ (.fetching s.next url) hw
        simp only [Worker.busy] at h2
        simp only [returnedPos_append]
        have h3 : returnedPos [Obs.fetch s.next url s.h.FetchTimeout] = [] := rfl
        rw [h3, List.append_nil]
        omega
      · intro p
        have h1 := inv.hInv p
        have h2 := wsum_set (Worker.callingAt p) _ _ _ (.fetching s.next url) hw
        simp only [Worker.callingAt] at h2
        simp only [returnedPos_append, invokedPos_append]
        have h3 : returnedPos [Obs.fetch s.next url s.h.FetchTimeout] = [] := rfl
        have h4 : invokedPos [Obs.fetch s.next url s.h.FetchTimeout] = [] := rfl
        rw [h3, h4, List.append_nil, List.append_nil]
        omega
      · intro x hm
        rcases List.mem_or_eq_of_mem_set hm with hm | hm
        · exact inv.hWUrl x hm
        · subst hm; rw [← hU]; exact hu
      · intro o hm
        rcases List.mem_append.1 hm with hm | hm
        · exact inv.hTrUrl o hm
        · simp only [List.mem_singleton] at hm
          subst hm
          exact ⟨by rw [← hU]; exact hu, by rw [inv.hH]⟩
    · cases hs
  | fetched w t =>
    simp only [step] at hs
    split at hs
    · rename_i pos url hw
      cases hs
      have hmem := mem_of_getElem? hw
      refine
        { hH := inv.hH, hU := inv.hU, hLen := (by simp [inv.hLen]), hNext := inv.hNext,
          hNoPanic := inv.hNoPanic, hClosedNext := inv.hClosedNext, hRet := inv.hRet,
          hCtx := inv.hCtx, hDrW := inv.hDrW, hAbs := inv.hAbs, hDrE := inv.hDrE,
          hWEx := ?_, hAll := ?_, hAcc := ?_, hSent := ?_, hInv := ?_, hWUrl := ?_, hTrUrl := ?_ }
      · intro hm
        rcases List.mem_or_eq_of_mem_set hm with hm | hm
        · exact inv.hWEx hm
        · cases hm
      · intro hc
        have := inv.hAll hc _ hmem
        cases this
      · intro p
        have h1 := inv.hAcc p
        have h2 := wsum_set (Worker.holds p) _ _ _ (.calling pos url) hw
        simp only [Worker.holds] at h2
        simp only [returnedPos_append]
        have h3 : returnedPos [Obs.onDone pos (fetchIndividualURL url t)] = [] := rfl
        rw [h3, List.append_nil]
        split_ifs at h1 h2 ⊢ <;> omega
      · have h1 := inv.hSent
        have h2 := wsum_set Worker.busy _ _ _ (.calling pos url) hw
        simp only [Worker.busy] at h2
        simp only [returnedPos_append]
        have h3 : returnedPos [Obs.onDone pos (fetchIndividualURL url t)] = [] := rfl
        rw [h3, List.append_nil]
        omega
      · intro p
        have h1 := inv.hInv p
        have h2 := wsum_set (Worker.callingAt p) _ _ _ (.calling pos url) hw
        simp only [Worker.callingAt] at h2
        simp only [returnedPos_append, invokedPos_append]
        have h3 : returnedPos [Obs.onDone pos (fetchIndividualURL url t)] = [] := rfl
        have h4 : invokedPos [Obs.onDone pos (fetchIndividualURL url t)] = [pos] := rfl
        rw [h3, h4, List.append_nil, count_snoc]
        split_ifs at h2 ⊢ <;> omega
      · intro x hm
        rcases List.mem_or_eq_of_mem_set hm with hm | hm
        · exact inv.hWUrl x hm
        · subst hm
          have := inv.hWUrl _ hmem
          exact this
      · intro o hm
        rcases List.mem_append.1 hm with hm | hm
        · exact inv.hTrUrl o hm
        · simp only [List.mem_singleton] at hm
          subst hm
          have := inv.hWUrl _ hmem
          exact this
    · cases hs
  | done w =>
    simp only [step] at hs
    split at hs
    · rename_i pos url hw
      cases hs
      have hmem := mem_of_getElem? hw
      refine
        { hH := inv.hH, hU := inv.hU, hLen := (by simp [inv.hLen]), hNext := inv.hNext,
          hNoPanic := inv.hNoPanic, hClosedNext := inv.hClosedNext, hRet := inv.hRet,
          hCtx := inv.hCtx, hDrW := inv.hDrW, hAbs := inv.hAbs, hDrE := inv.hDrE,
          hWEx := ?_, hAll := ?_, hAcc := ?_, hSent := ?_, hInv := ?_, hWUrl := ?_, hTrUrl := ?_ }
      · intro hm
        rcases List.mem_or_eq_of_mem_set hm with hm | hm
        · exact inv.hWEx hm
        · cases hm
      · intro hc
        have := inv.hAll hc _ hmem
        cases this
      · intro p
        have h1 := inv.hAcc p
        have h2 := wsum_set (Worker.holds p) _ _ _ .idle hw
        simp only [Worker.holds] at h2
        simp only [returnedPos_append]
        have h3 : returnedPos [Obs.onDoneRet pos] = [pos] := rfl
        rw [h3, count_snoc]
        split_ifs at h1 h2 ⊢ <;> omega
      · have h1 := inv.hSent
        have h2 := wsum_set Worker.busy _ _ _ .idle hw
        simp only [Worker.busy] at h2
        simp only [returnedPos_append]
        have h3 : returnedPos [Obs.onDoneRet pos] = [pos] := rfl
        rw [h3, List.length_append, List.length_singleton]
        omega
      · intro p
        have h1 := inv.hInv p
        have h2 := wsum_set (Worker.callingAt p) _ _ _ .idle hw
        simp only [Worker.callingAt] at h2
        simp only [returnedPos_append, invokedPos_append]
        have h3 : returnedPos [Obs.onDoneRet pos] = [pos] := rfl
        have h4 : invokedPos [Obs.onDoneRet pos] = [] := rfl
        rw [h3, h4, List.append_nil, count_snoc]
        split_ifs at h2 ⊢ <;> omega
      · intro x hm
        rcases List.mem_or_eq_of_mem_set hm with hm | hm
        · exact inv.hWUrl x hm
        · subst hm; trivial
      · intro o hm
        rcases List.mem_append.1 hm with hm | hm
        · exact inv.hTrUrl o hm
        · simp only [List.mem_singleton] at hm
          subst hm
          trivial
    · cases hs
  | stop w =>
    simp only [step] at hs
    split at hs
    · rename_i c hc hw
      cases hs
      refine
        { hH := inv.hH, hU := inv.hU, hLen := (by simp [inv.hLen]), hNext := inv.hNext,
          hNoPanic := inv.hNoPanic, hClosedNext := inv.hClosedNext, hRet := inv.hRet,
          hCtx := inv.hCtx, hDrW := inv.hDrW, hAbs := inv.hAbs, hDrE := inv.hDrE,
          hWEx := fun _ => Or.inl (by rw [show s.ctx = some c from hc]; simp), hAll := ?_,
          hAcc := ?_, hSent := ?_, hInv := ?_, hWUrl := ?_, hTrUrl := inv.hTrUrl }
      · intro hc x hm
        rcases List.mem_or_eq_of_mem_set hm with hm | hm
        · exact inv.hAll hc x hm
        · exact hm
      · intro p
        have h1 := inv.hAcc p
        have h2 := wsum_set (Worker.holds p) _ _ _ .exited hw
        simp only [Worker.holds] at h2
        dsimp only
        omega
      · have h1 := inv.hSent
        have h2 := wsum_set Worker.busy _ _ _ .exited hw
        simp only [Worker.busy] at h2
        dsimp only
        omega
      · intro p
        have h1 := inv.hInv p
        have h2 := wsum_set (Worker.callingAt p) _ _ _ .exited hw
        simp only [Worker.callingAt] at h2
        dsimp only
        omega
      · intro x hm
        rcases List.mem_or_eq_of_mem_set hm with hm | hm
        · exact inv.hWUrl x hm
        · subst hm; trivial
    · cases hs
  | eof w =>
    simp only [step] at hs
    split at hs
    · rename_i hc hw
      cases hs
      refine
        { hH := inv.hH, hU := inv.hU, hLen := (by simp [inv.hLen]), hNext := inv.hNext,
          hNoPanic := inv.hNoPanic, hClosedNext := inv.hClosedNext, hRet := inv.hRet,
          hCtx := inv.hCtx, hDrW := inv.hDrW, hAbs := inv.hAbs, hDrE := inv.hDrE,
          hWEx := fun _ => Or.inr hc, hAll := ?_,
          hAcc := ?_, hSent := ?_, hInv := ?_, hWUrl := ?_, hTrUrl := inv.hTrUrl }
      · intro hc x hm
        rcases List.mem_or_eq_of_mem_set hm with hm | hm
        · exact inv.hAll hc x hm
        · exact hm
      · intro p
        have h1 := inv.hAcc p
        have h2 := wsum_set (Worker.holds p) _ _ _ .exited hw
        simp only [Worker.holds] at h2
        dsimp only
        omega
      · have h1 := inv.hSent
        have h2 := wsum_set Worker.busy _ _ _ .exited hw
        simp only [Worker.busy] at h2
        dsimp only
        omega
      · intro p
        have h1 := inv.hInv p
        have h2 := wsum_set (Worker.callingAt p) _ _ _ .exited hw
        simp only [Worker.callingAt] at h2
        dsimp only
        omega
      · intro x hm
        rcases List.mem_or_eq_of_mem_set hm with hm | hm
        · exact inv.hWUrl x hm
        · subst hm; trivial
    · cases hs
  | wake =>
    simp only [step] at hs
    split at hs
    · rename_i c hc hdr
      cases hs
      exact
        { hH := inv.hH, hU := inv.hU, hLen := inv.hLen, hNext := inv.hNext,
          hNoPanic := inv.hNoPanic, hClosedNext := inv.hClosedNext, hRet := inv.hRet,
          hCtx := inv.hCtx, hDrW := fun _ => (by rw [show s.ctx = some c from hc]; simp),
          hAbs := inv.hAbs, hDrE := fun hx => (by cases hx),
          hWEx := inv.hWEx, hAll := inv.hAll,
          hAcc := inv.hAcc, hSent := inv.hSent, hInv := inv.hInv, hWUrl := inv.hWUrl, hTrUrl := inv.hTrUrl }
    · cases hs
  | drain =>
    simp only [step] at hs
    split at hs
    · rename_i url hd hu hdr
      cases hs
      have hlt : s.next < urls.length := by rw [← hU]; exact lt_of_getElem? hu
      have hnr : ∀ r, s.disp ≠ .returned r := by
        intro r hr; rw [hd] at hr; cases hr
      have hctx : s.ctx ≠ none := inv.hDrW (by rw [hdr]; simp)
      have hout : s.outer ≠ none := by rw [← inv.hCtx hnr]; exact hctx
      refine
        { hH := inv.hH, hU := inv.hU, hLen := inv.hLen, hNext := hlt,
          hNoPanic := inv.hNoPanic, hClosedNext := fun hne => absurd hd hne,
          hRet := fun r hr => absurd hr (hnr r),
          hCtx := inv.hCtx, hDrW := inv.hDrW, hAbs := fun ho => absurd ho hout, hDrE := inv.hDrE,
          hWEx := inv.hWEx, hAll := inv.hAll, hAcc := ?_, hSent := ?_, hInv := inv.hInv,
          hWUrl := inv.hWUrl,
          hTrUrl := inv.hTrUrl }
      · intro p
        have h1 := inv.hAcc p
        show (s.absorbed ++ [s.next]).count p + wsum (Worker.holds p) s.workers
          + (returnedPos s.trace).count p = if p < s.next + 1 then 1 else 0
        rw [count_snoc]
        split_ifs at h1 ⊢ <;> omega
      · have h1 := inv.hSent
        show s.next + 1 = (s.absorbed ++ [s.next]).length + wsum Worker.busy s.workers
          + (returnedPos s.trace).length
        rw [List.length_append, List.length_singleton]
        omega
    · cases hs
  | drainEnd =>
    simp only [step] at hs
    split at hs
    · rename_i hc hdr
      cases hs
      exact
        { hH := inv.hH, hU := inv.hU, hLen := inv.hLen, hNext := inv.hNext,
          hNoPanic := inv.hNoPanic, hClosedNext := inv.hClosedNext, hRet := inv.hRet,
          hCtx := inv.hCtx, hDrW := fun _ => inv.hDrW (by rw [hdr]; simp),
          hAbs := inv.hAbs, hDrE := fun _ => hc,
          hWEx := inv.hWEx, hAll := inv.hAll,
          hAcc := inv.hAcc, hSent := inv.hSent, hInv := inv.hInv, hWUrl := inv.hWUrl, hTrUrl := inv.hTrUrl }
    · cases hs
  | close =>
    simp only [step] at hs
    split at hs
    · rename_i hd
      split at hs
      · rename_i hn
        cases hs
        have hnr : ∀ r, s.disp ≠ .returned r := by
          intro r hr; rw [hd] at hr; cases hr
        exact
          { hH := inv.hH, hU := inv.hU, hLen := inv.hLen, hNext := inv.hNext,
            hNoPanic := (by simp), hClosedNext := fun _ => (by rw [← hU]; exact hn),
            hRet := fun r hr => (by cases hr),
            hCtx := fun _ => inv.hCtx hnr, hDrW := inv.hDrW,
            hAbs := inv.hAbs, hDrE := fun _ => rfl,
            hWEx := fun _ => Or.inr rfl,
            hAll := fun hc => (by rcases hc with hc | ⟨r, hc⟩ <;> cases hc),
            hAcc := inv.hAcc, hSent := inv.hSent, hInv := inv.hInv, hWUrl := inv.hWUrl, hTrUrl := inv.hTrUrl }
      · cases hs
    · cases hs
  | wait =>
    simp only [step] at hs
    split at hs
    · rename_i hd
      split at hs
      · rename_i hall
        cases hs
        have hnr : ∀ r, s.disp ≠ .returned r := by
          intro r hr; rw [hd] at hr; cases hr
        exact
          { hH := inv.hH, hU := inv.hU, hLen := inv.hLen, hNext := inv.hNext,
            hNoPanic := (by simp),
            hClosedNext := fun _ => inv.hClosedNext (by rw [hd]; simp),
            hRet := fun r hr => (by cases hr),
            hCtx := fun _ => inv.hCtx hnr, hDrW := inv.hDrW,
            hAbs := inv.hAbs, hDrE := fun _ => rfl,
            hWEx := fun _ => Or.inr rfl,
            hAll := fun _ x hx => (by
              have := List.all_eq_true.1 hall x hx
              simpa using this),
            hAcc := inv.hAcc, hSent := inv.hSent, hInv := inv.hInv, hWUrl := inv.hWUrl, hTrUrl := inv.hTrUrl }
      · cases hs
    · cases hs
  | ret =>
    simp only [step] at hs
    split at hs
    · rename_i hd
      cases hs
      have hnr : ∀ r, s.disp ≠ .returned r := by
        intro r hr; rw [hd] at hr; cases hr
      exact
        { hH := inv.hH, hU := inv.hU, hLen := inv.hLen, hNext := inv.hNext,
          hNoPanic := (by simp),
          hClosedNext := fun _ => inv.hClosedNext (by rw [hd]; simp),
          hRet := fun r hr => (by
            have hr' : Disp.returned s.ctx = Disp.returned r := hr
            injection hr' with hr'
            subst hr'
            exact ⟨inv.hCtx hnr, by simp⟩),
          hCtx := fun hx => absurd rfl (hx s.ctx), hDrW := fun _ => (by simp),
          hAbs := inv.hAbs, hDrE := fun _ => rfl,
          hWEx := fun _ => Or.inr rfl,
          hAll := fun _ => inv.hAll (Or.inl hd),
          hAcc := inv.hAcc, hSent := inv.hSent, hInv := inv.hInv, hWUrl := inv.hWUrl, hTrUrl := inv.hTrUrl }
    · cases hs


theorem run_inv {h1 : Hasher ω} {urls : List String} {n : Nat} :
    ∀ (es : List Event) {s s1 : State ω}, Inv h1 urls n s → run s es = some s1 →
      Inv h1 urls n s1 := by
  intro es
  induction es with
  | nil => intro s s1 inv hr; cases hr; exact inv
  | cons e es ih =>
    intro s s1 inv hr
    simp only [run] at hr
    cases hst : step s e with
    | none => rw [hst] at hr; cases hr
    | some s2 =>
      rw [hst] at hr
      exact ih (step_inv e inv hst) hr

theorem step_fuel {s s1 : State ω} (e : Event) (hs : step s e = some s1) : fuel s1 < fuel s := by
  cases e with
  | cancel err =>
    simp only [step] at hs
    split at hs
    · rename_i hc
      cases hs
      simp only [fuel, hc.1]
      simp
    · cases hs
  | recv w =>
    simp only [step] at hs
    split at hs
    · rename_i url hd hu hw
      cases hs
      have hlt := lt_of_getElem? hu
      have h2 := wsum_set Worker.weight _ _ _ (.fetching s.next url) hw
      simp only [Worker.weight] at h2
      simp only [fuel]
      omega
    · cases hs
  | fetched w t =>
    simp only [step] at hs
    split at hs
    · rename_i pos url hw
      cases hs
      have h2 := wsum_set Worker.weight _ _ _ (.calling pos url) hw
      simp only [Worker.weight] at h2
      simp only [fuel]
      omega
    · cases hs
  | done w =>
    simp only [step] at hs
    split at hs
    · rename_i pos url hw
      cases hs
      have h2 := wsum_set Worker.weight _ _ _ .idle hw
      simp only [Worker.weight] at h2
      simp only [fuel]
      omega
    · cases hs
  | stop w =>
    simp only [step] at hs
    split at hs
    · rename_i c hc hw
      cases hs
      have h2 := wsum_set Worker.weight _ _ _ .exited hw
      simp only [Worker.weight] at h2
      simp only [fuel]
      omega
    · cases hs
  | eof w =>
    simp only [step] at hs
    split at hs
    · rename_i hc hw
      cases hs
      have h2 := wsum_set Worker.weight _ _ _ .exited hw
      simp only [Worker.weight] at h2
      simp only [fuel]
      omega
    · cases hs
  | wake =>
    simp only [step] at hs
    split at hs
    · rename_i c hc hdr
      cases hs
      simp only [fuel, hdr, Drainer.weight]
      omega
    · cases hs
  | drain =>
    simp only [step] at hs
    split at hs
    · rename_i url hd hu hdr
      cases hs
      have hlt := lt_of_getElem? hu
      simp only [fuel]
      omega
    · cases hs
  | drainEnd =>
    simp only [step] at hs
    split at hs
    · rename_i hc hdr
      cases hs
      simp only [fuel, hdr, Drainer.weight]
      omega
    · cases hs
  | close =>
    simp only [step] at hs
    split at hs
    · rename_i hd
      split at hs
      · cases hs
        simp only [fuel, hd, Disp.weight]
        omega
      · cases hs
    · cases hs
  | wait =>
    simp only [step] at hs
    split at hs
    · rename_i hd
      split at hs
      · cases hs
        simp only [fuel, hd, Disp.weight]
        omega
      · cases hs
    · cases hs
  | ret =>
    simp only [step] at hs
    split at hs
    · rename_i hd
      cases hs
      simp only [fuel, hd, Disp.weight]
      omega
    · cases hs

theorem run_fuel : ∀ (es : List Event) {s s1 : State ω}, run s es = some s1 →
    fuel s1 + es.length ≤ fuel s := by
  intro es
  induction es with
  | nil => intro s s1 hr; cases hr; simp
  | cons e es ih =>
    intro s s1 hr
    simp only [run] at hr
    cases hst : step s e with
    | none => rw [hst] at hr; cases hr
    | some s2 =>
      rw [hst] at hr
      have h1 := ih hr
      have h2 := step_fuel e hst
      simp only [List.length_cons]
      omega

theorem wsum_replicate (f : Worker → Nat) (k : Nat) (w : Worker) :
    wsum f (List.replicate k w) = k * f w := by
  induction k with
  | zero => simp [wsum]
  | succ k ih =>
    simp only [wsum, List.replicate_succ, List.map_cons, List.sum_cons] at ih ⊢
    rw [ih, Nat.succ_mul]; omega

theorem fuel_Start (h : Hasher ω) (urls : List String) :
    fuel (Start h urls) ≤ 3 * urls.length + h.Parallel.toNat + 6 := by
  have hpar : (withDefault h).Parallel = h.Parallel := by
    unfold withDefault; split <;> rfl
  simp only [Start, hpar]
  split
  · simp [fuel, wsum, Drainer.weight, Disp.weight]
    omega
  · simp only [fuel, wsum_replicate, Worker.weight, Drainer.weight, Disp.weight]
    simp
    omega

/-- No deadlock: while `Start` has not returned, some goroutine can take a
step, as long as there is a worker, or the context is done, or there is no
URL. -/
theorem step_enabled {h1 : Hasher ω} {urls : List String} {n : Nat} {s : State ω}
    (inv : Inv h1 urls n s) (hgo : 1 ≤ n ∨ s.outer ≠ none ∨ urls = [])
    (hnr : ∀ r, s.disp ≠ .returned r) :
    ∃ e, (∀ c, e ≠ .cancel c) ∧ (step s e).isSome = true := by
  have hU := inv.hU
  have busyStep : ∀ (w : Nat) (x : Worker), s.workers[w]? = some x → x ≠ .idle → x ≠ .exited →
      ∃ e, (∀ c, e ≠ .cancel c) ∧ (step s e).isSome = true := by
    intro w x hw hi he
    cases x with
    | idle => exact absurd rfl hi
    | exited => exact absurd rfl he
    | fetching p u => exact ⟨.fetched w (.badRequest ""), by simp, by simp [step, hw]⟩
    | calling p u => exact ⟨.done w, by simp, by simp [step, hw]⟩
  cases hd : s.disp with
  | panicked => exact absurd hd inv.hNoPanic
  | returned r => exact absurd hd (hnr r)
  | waited => exact ⟨.ret, by simp, by simp [step, hd]⟩
  | waiting =>
    by_cases hall : s.workers.all (fun w => decide (w = .exited)) = true
    · exact ⟨.wait, by simp, by simp only [step, hd, hall]; simp⟩
    · have : ∃ x ∈ s.workers, x ≠ .exited := by
        by_contra hcon
        apply hall
        rw [List.all_eq_true]
        intro x hx
        by_contra hne
        exact hcon ⟨x, hx, by simpa using hne⟩
      obtain ⟨x, hx, hne⟩ := this
      obtain ⟨w, hw⟩ := List.getElem?_of_mem hx
      by_cases hi : x = .idle
      · subst hi
        exact ⟨.eof w, by simp, by simp [step, hd, hw, Disp.closed]⟩
      · exact busyStep w x hw hi hne
  | sending =>
    by_cases hn : s.next = s.urls.length
    · exact ⟨.close, by simp, by simp [step, hd, hn]⟩
    · have hlt : s.next < s.urls.length := by
        have := inv.hNext
        rw [← hU] at this
        omega
      have hu : s.urls[s.next]? = some (s.urls[s.next]) := List.getElem?_eq_getElem hlt
      have hctx : s.ctx = s.outer := inv.hCtx hnr
      by_cases ho : s.outer = none
      · have hn1 : 1 ≤ n := by
          rcases hgo with h | h | h
          · exact h
          · exact absurd ho h
          · rw [← hU] at h; rw [h] at hlt; simp at hlt
        have hw0 : (0 : Nat) < s.workers.length := by rw [inv.hLen]; exact hn1
        have hw : s.workers[0]? = some (s.workers[0]) := List.getElem?_eq_getElem hw0
        by_cases hi : s.workers[0] = .idle
        · rw [hi] at hw
          exact ⟨.recv 0, by simp, by simp [step, hd, hu, hw]⟩
        · refine busyStep 0 _ hw hi ?_
          intro hex
          have hm : Worker.exited ∈ s.workers := by
            rw [← hex]; exact List.getElem_mem hw0
          rcases inv.hWEx hm with h | h
          · rw [hctx] at h; exact h ho
          · rw [hd] at h; cases h
      · have hc : s.ctx ≠ none := by rw [hctx]; exact ho
        obtain ⟨c, hc⟩ := Option.ne_none_iff_exists'.1 hc
        cases hdr : s.drainer with
        | waiting => exact ⟨.wake, by simp, by simp [step, hc, hdr]⟩
        | draining => exact ⟨.drain, by simp, by simp [step, hd, hu, hdr]⟩
        | exited =>
          have := inv.hDrE hdr
          rw [hd] at this
          cases this


theorem step_outer_eq {s s1 : State ω} (e : Event) (hs : step s e = some s1)
    (hc : ∀ c, e ≠ .cancel c) : s1.outer = s.outer := by
  cases e with
  | cancel c => exact absurd rfl (hc c)
  | close =>
    simp only [step] at hs
    split at hs
    · split at hs
      · cases hs; rfl
      · cases hs
    · cases hs
  | wait =>
    simp only [step] at hs
    split at hs
    · split at hs
      · cases hs; rfl
      · cases hs
    · cases hs
  | _ =>
    simp only [step] at hs
    split at hs
    · cases hs; rfl
    · cases hs

/-- From every state of a call with a worker, or without URLs, the goroutines
can run on, without any further cancellation, until `Start` has returned the
error of the caller's context. -/
theorem can_return {h1 : Hasher ω} {urls : List String} {n : Nat} (hgo : 1 ≤ n ∨ urls = []) :
    ∀ (k : Nat) (s : State ω), fuel s ≤ k → Inv h1 urls n s →
      ∃ es s2, (∀ c, Event.cancel c ∉ es) ∧ run s es = some s2
        ∧ s2.disp = .returned s.outer := by
  intro k
  induction k with
  | zero =>
    intro s hk inv
    by_cases hr : ∃ r, s.disp = .returned r
    · obtain ⟨r, hr⟩ := hr
      refine ⟨[], s, by simp, rfl, ?_⟩
      rw [hr, (inv.hRet r hr).1]
    · have hnr : ∀ r, s.disp ≠ .returned r := fun r h => hr ⟨r, h⟩
      have hgo2 : 1 ≤ n ∨ s.outer ≠ none ∨ urls = [] := by
        rcases hgo with h | h
        · exact Or.inl h
        · exact Or.inr (Or.inr h)
      obtain ⟨e, _, he⟩ := step_enabled inv hgo2 hnr
      obtain ⟨s1, hs1⟩ := Option.isSome_iff_exists.1 he
      have := step_fuel e hs1
      omega
  | succ k ih =>
    intro s hk inv
    by_cases hr : ∃ r, s.disp = .returned r
    · obtain ⟨r, hr⟩ := hr
      refine ⟨[], s, by simp, rfl, ?_⟩
      rw [hr, (inv.hRet r hr).1]
    · have hnr : ∀ r, s.disp ≠ .returned r := fun r h => hr ⟨r, h⟩
      have hgo2 : 1 ≤ n ∨ s.outer ≠ none ∨ urls = [] := by
        rcases hgo with h | h
        · exact Or.inl h
        · exact Or.inr (Or.inr h)
      obtain ⟨e, hec, he⟩ := step_enabled inv hgo2 hnr
      obtain ⟨s1, hs1⟩ := Option.isSome_iff_exists.1 he
      have hf := step_fuel e hs1
      obtain ⟨es, s2, hnc, hrun, hd⟩ := ih s1 (by omega) (step_inv e inv hs1)
      refine ⟨e :: es, s2, ?_, ?_, ?_⟩
      · intro c hm
        rcases List.mem_cons.1 hm with hm | hm
        · exact hec c hm.symm
        · exact hnc c hm
      · simp only [run, hs1, Option.bind]
        exact hrun
      · rw [hd, step_outer_eq e hs1 hec]

theorem perm_range_of_count (l : List Nat) (n : Nat)
    (h : ∀ p, l.count p = if p < n then 1 else 0) : l.Perm (List.range n) := by
  rw [List.perm_iff_count]
  intro p
  rw [h p]
  by_cases hp : p < n
  · rw [if_pos hp, List.count_eq_one_of_mem (List.nodup_range n) (List.mem_range.2 hp)]
  · rw [if_neg hp, List.count_eq_zero_of_not_mem (fun hm => hp (List.mem_range.1 hm))]

theorem calls_url (urls : List String) (timeout : Int) : ∀ (tr : List Obs),
    (∀ o ∈ tr, o.ok urls timeout) →
      (calls tr).map Args.url = (invokedPos tr).map (fun p => urls.getD p "") := by
  intro tr
  induction tr with
  | nil => intro _; rfl
  | cons o tr ih =>
    intro hok
    have ih' := ih (fun x hx => hok x (List.mem_cons_of_mem _ hx))
    have ho := hok o (List.mem_cons_self _ _)
    cases o with
    | fetch p u t => exact ih'
    | onDoneRet p => exact ih'
    | onDone p a =>
      have hu : urls[p]? = some a.url := ho
      have e1 : calls (Obs.onDone p a :: tr) = a :: calls tr := rfl
      have e2 : invokedPos (Obs.onDone p a :: tr) = p :: invokedPos tr := rfl
      rw [e1, e2, List.map_cons, List.map_cons, ih']
      congr 1
      simp [List.getD_eq_getElem?_getD, hu]

theorem calls_length (tr : List Obs) : (calls tr).length = (invokedPos tr).length := by
  induction tr with
  | nil => rfl
  | cons o tr ih =>
    cases o with
    | fetch p u t => exact ih
    | onDoneRet p => exact ih
    | onDone p a =>
      have e1 : calls (Obs.onDone p a :: tr) = a :: calls tr := rfl
      have e2 : invokedPos (Obs.onDone p a :: tr) = p :: invokedPos tr := rfl
      rw [e1, e2, List.length_cons, List.length_cons, ih]

theorem map_getD_range (l : List String) :
    (List.range l.length).map (fun p => l.getD p "") = l := by
  apply List.ext_getElem
  · simp
  · intro i h1 h2
    simp [List.getD_eq_getElem?_getD, h2]

theorem wsum_eq_zero (f : Worker → Nat) (ws : List Worker) (h : ∀ w ∈ ws, f w = 0) :
    wsum f ws = 0 := by
  induction ws with
  | nil => rfl
  | cons x xs ih =>
    have hx := h x (List.mem_cons_self _ _)
    have := ih (fun w hw => h w (List.mem_cons_of_mem _ hw))
    simp only [wsum, List.map_cons, List.sum_cons] at this ⊢
    omega

theorem wsum_le (f g : Worker → Nat) (ws : List Worker) (h : ∀ w, f w ≤ g w) :
    wsum f ws ≤ wsum g ws := by
  induction ws with
  | nil => simp [wsum]
  | cons x xs ih =>
    have hx := h x
    simp only [wsum, List.map_cons, List.sum_cons] at ih ⊢
    omega

theorem callingAt_le_holds (p : Nat) (w : Worker) : w.callingAt p ≤ w.holds p := by
  cases w <;> simp [Worker.callingAt, Worker.holds]

theorem inFlight_eq_wsum (ws : List Worker) :
    (ws.filter Worker.inFlight).length = wsum Worker.busy ws := by
  induction ws with
  | nil => rfl
  | cons x xs ih =>
    simp only [wsum, List.map_cons, List.sum_cons] at ih ⊢
    cases x <;> simp [List.filter_cons, Worker.inFlight, Worker.busy, ih] <;> omega

/-- Every input position has at most one callback, none when the drainer
took it, and it is below the number of sends. -/
theorem Inv.count_invoked {h1 : Hasher ω} {urls : List String} {n : Nat} {s : State ω}
    (inv : Inv h1 urls n s) (p : Nat) :
    (invokedPos s.trace).count p ≤ (if p < s.next then 1 else 0)
    ∧ (p ∈ s.absorbed → (invokedPos s.trace).count p = 0) := by
  have h1 := inv.hAcc p
  have h2 := inv.hInv p
  have h3 := wsum_le _ _ s.workers (callingAt_le_holds p)
  refine ⟨by omega, ?_⟩
  intro hm
  have := List.count_pos_iff.2 hm
  split_ifs at h1 <;> omega

theorem Inv.calls_le {h1 : Hasher ω} {urls : List String} {n : Nat} {s : State ω}
    (inv : Inv h1 urls n s) : (calls s.trace).length ≤ urls.length := by
  rw [calls_length]
  have hnd : (invokedPos s.trace).Nodup := by
    rw [List.nodup_iff_count_le_one]
    intro p
    have := (inv.count_invoked p).1
    split_ifs at this <;> omega
  have hsub : invokedPos s.trace ⊆ List.range urls.length := by
    intro p hp
    have hpos := List.count_pos_iff.2 hp
    have := (inv.count_invoked p).1
    have hn := inv.hNext
    rw [List.mem_range]
    split_ifs at this <;> omega
  have := (List.subperm_of_subset hnd hsub).length_le
  simpa using this

/-- What holds once `Start` has returned and the caller's context was not
cancelled during the call: every input position has exactly one callback. -/
theorem Inv.count_at_return {h1 : Hasher ω} {urls : List String} {n : Nat} {s : State ω}
    (inv : Inv h1 urls n s) (r : Option CtxErr) (hret : s.disp = .returned r)
    (hnc : s.outer = none) (p : Nat) :
    (invokedPos s.trace).count p = (if p < urls.length then 1 else 0)
    ∧ (returnedPos s.trace).count p = (if p < urls.length then 1 else 0) := by
  have hall := inv.hAll (Or.inr ⟨r, hret⟩)
  have h1 := inv.hAcc p
  have h2 := inv.hInv p
  have hn : s.next = urls.length := inv.hClosedNext (by rw [hret]; simp)
  have ha : s.absorbed = [] := inv.hAbs hnc
  have z1 : wsum (Worker.holds p) s.workers = 0 :=
    wsum_eq_zero _ _ (fun w hw => by rw [hall w hw]; rfl)
  have z2 : wsum (Worker.callingAt p) s.workers = 0 :=
    wsum_eq_zero _ _ (fun w hw => by rw [hall w hw]; rfl)
  rw [ha, z1, hn] at h1
  rw [z2] at h2
  simp only [List.count_nil] at h1
  constructor <;> omega

theorem run_Start_inv (h : Hasher ω) (urls : List String) (es : List Event) (s : State ω)
    (hp : 0 ≤ h.Parallel) (hrun : run (Start h urls) es = some s) :
    Inv (withDefault h) urls h.Parallel.toNat s :=
  run_inv es (Start_inv h urls hp) hrun

/-- C1: with at least one worker and no cancellation of the caller's context
during the call, when `Start` has returned `OnDone` has been invoked exactly
`len(urls)` times, every invocation has returned, and the URLs passed to it
are the input URLs as a multiset: each input position got exactly one
callback, with its own URL; an empty list gives no callback. -/
theorem Start_calls_OnDone_once_per_url (h : Hasher ω) (urls : List String) (es : List Event)
    (s : State ω) (r : Option CtxErr) (hp : 1 ≤ h.Parallel)
    (hrun : run (Start h urls) es = some s) (hnc : s.outer = none)
    (hret : s.disp = .returned r) :
    (calls s.trace).length = urls.length
    ∧ ((calls s.trace).map Args.url).Perm urls
    ∧ (∀ p, (invokedPos s.trace).count p = if p < urls.length then 1 else 0)
    ∧ (returnedPos s.trace).length = urls.length
    ∧ (urls = [] → calls s.trace = []) := by
  have inv := run_Start_inv h urls es s (by omega) hrun
  have hcnt := fun p => (inv.count_at_return r hret hnc p).1
  have hcntR := fun p => (inv.count_at_return r hret hnc p).2
  have hperm := perm_range_of_count _ _ hcnt
  have hlen : (calls s.trace).length = urls.length := by
    rw [calls_length, hperm.length_eq, List.length_range]
  refine ⟨hlen, ?_, hcnt, ?_, ?_⟩
  · rw [calls_url urls _ s.trace inv.hTrUrl]
    have := hperm.map (fun p => urls.getD p "")
    rw [map_getD_range] at this
    exact this
  · rw [(perm_range_of_count _ _ hcntR).length_eq, List.length_range]
  · intro hnil
    rw [hnil] at hlen
    exact List.length_eq_zero.1 hlen

/-- C4: with at least one worker and no cancellation of the caller's context
during the call, the value `Start` returns is nil whatever the outcomes passed
to `OnDone` are; and `Start` does return: from every state the call can run on
until it has returned nil, while it has not returned some goroutine can take a
step, and no schedule has more than `3 * len(urls) + Parallel + 6` steps. -/
theorem Start_returns_nil_when_not_cancelled (h : Hasher ω) (urls : List String)
    (es : List Event) (s : State ω) (hp : 1 ≤ h.Parallel)
    (hrun : run (Start h urls) es = some s) (hnc : s.outer = none) :
    (∀ r, s.disp = .returned r → r = none)
    ∧ (∃ es2 s2, (∀ c, Event.cancel c ∉ es2) ∧ run s es2 = some s2 ∧ s2.disp = .returned none)
    ∧ ((∀ r, s.disp ≠ .returned r) → ∃ e, (∀ c, e ≠ .cancel c) ∧ (step s e).isSome = true)
    ∧ es.length ≤ 3 * urls.length + h.Parallel.toNat + 6 := by
  have inv := run_Start_inv h urls es s (by omega) hrun
  refine ⟨?_, ?_, ?_, ?_⟩
  · intro r hr
    rw [(inv.hRet r hr).1, hnc]
  · have := can_return (Or.inl (by omega)) (fuel s) s (Nat.le_refl _) inv
    rw [hnc] at this
    exact this
  · intro hnr
    exact step_enabled inv (Or.inl (by omega)) hnr
  · have h1 := run_fuel es hrun
    have h2 := fuel_Start h urls
    omega

/-- C5: with at least one worker, once the caller's context is cancelled
during the call, `Start` returns the context's error, not nil; it does
return: a blocked send can always be taken by the drainer, from every state
the call can run on until it has returned, while it has not returned some
goroutine can take a step, and no schedule has more than
`3 * len(urls) + Parallel + 6` steps; at most `len(urls)` callbacks have
fired, no input position has more than one, and a position the drainer
absorbed has none. -/
theorem Start_cancelled (h : Hasher ω) (urls : List String) (es : List Event) (s : State ω)
    (hp : 1 ≤ h.Parallel) (hrun : run (Start h urls) es = some s) (hc : s.outer ≠ none) :
    (∀ r, s.disp = .returned r → r ≠ none ∧ r = s.outer)
    ∧ (s.disp = .sending → s.next < urls.length →
        (step s .wake).isSome = true ∨ (step s .drain).isSome = true)
    ∧ (∃ es2 s2, (∀ c, Event.cancel c ∉ es2) ∧ run s es2 = some s2
        ∧ s2.disp = .returned s.outer)
    ∧ ((∀ r, s.disp ≠ .returned r) → ∃ e, (∀ c, e ≠ .cancel c) ∧ (step s e).isSome = true)
    ∧ es.length ≤ 3 * urls.length + h.Parallel.toNat + 6
    ∧ (calls s.trace).length ≤ urls.length
    ∧ (∀ p, (invokedPos s.trace).count p ≤ 1)
    ∧ (∀ p ∈ s.absorbed, (invokedPos s.trace).count p = 0) := by
  have inv := run_Start_inv h urls es s (by omega) hrun
  refine ⟨?_, ?_, can_return (Or.inl (by omega)) (fuel s) s (Nat.le_refl _) inv, ?_, ?_,
    inv.calls_le, ?_, ?_⟩
  · intro r hr
    have := (inv.hRet r hr).1
    exact ⟨by rw [this]; exact hc, this⟩
  · intro hd hlt
    have hnr : ∀ r, s.disp ≠ .returned r := by
      intro r hr; rw [hd] at hr; cases hr
    have hctx : s.ctx ≠ none := by rw [inv.hCtx hnr]; exact hc
    obtain ⟨c, hc'⟩ := Option.ne_none_iff_exists'.1 hctx
    have hlt' : s.next < s.urls.length := by rw [inv.hU]; exact hlt
    have hu : s.urls[s.next]? = some (s.urls[s.next]) := List.getElem?_eq_getElem hlt'
    cases hdr : s.drainer with
    | waiting => left; simp [step, hc', hdr]
    | draining => right; simp [step, hd, hu, hdr]
    | exited =>
      have := inv.hDrE hdr
      rw [hd] at this
      cases this
  · intro hnr
    exact step_enabled inv (Or.inl (by omega)) hnr
  · have h1 := run_fuel es hrun
    have h2 := fuel_Start h urls
    omega
  · intro p
    have := (inv.count_invoked p).1
    split_ifs at this <;> omega
  · intro p hp
    exact (inv.count_invoked p).2 hp

/-- C6: in every reachable state of `Start` with `Parallel = n ≥ 1` exactly
`n` workers exist and at most `n` fetches are in flight; every URL that left
the feed loop is with a worker, was dropped by the drainer, or has had its
callback return, so the channel holds none. -/
theorem inFlight_le_Parallel (h : Hasher ω) (urls : List String) (es : List Event)
    (s : State ω) (hp : 1 ≤ h.Parallel) (hrun : run (Start h urls) es = some s) :
    (inFlight s : Int) ≤ h.Parallel
    ∧ (s.workers.length : Int) = h.Parallel
    ∧ s.next = s.absorbed.length + inFlight s + (returnedPos s.trace).length := by
  have inv := run_Start_inv h urls es s (by omega) hrun
  have hle : inFlight s ≤ s.workers.length := List.length_filter_le _ _
  have hlen := inv.hLen
  have hs := inv.hSent
  rw [← inFlight_eq_wsum] at hs
  refine ⟨by omega, by omega, hs⟩


theorem sequential_succ (k : Nat) :
    sequential (k + 1) = sequential k ++ [.fetch k, .onDone k, .onDoneRet k] := by
  simp [sequential, List.range_succ, List.flatMap_append]

theorem sequential_mono {k m : Nat} (h : k ≤ m) : sequential k <+: sequential m := by
  induction m with
  | zero =>
    have : k = 0 := by omega
    subst this
    exact List.prefix_refl _
  | succ m ih =>
    by_cases hk : k = m + 1
    · subst hk; exact List.prefix_refl _
    · have := ih (by omega)
      rw [sequential_succ]
      exact this.trans (List.prefix_append _ _)

theorem invokedPos_eq_phase (tr : List Obs) :
    invokedPos tr = (tr.map Obs.phase).filterMap
      (fun ph => match ph with
        | .onDone p => some p
        | _ => none) := by
  induction tr with
  | nil => rfl
  | cons o tr ih =>
    cases o <;> simp [invokedPos, Obs.phase, List.filterMap_cons] at ih ⊢ <;> exact ih

theorem invoked_sequential (k : Nat) :
    (sequential k).filterMap
      (fun ph => match ph with
        | .onDone p => some p
        | _ => none) = List.range k := by
  induction k with
  | zero => rfl
  | succ k ih =>
    rw [sequential_succ, List.filterMap_append, ih, List.range_succ]
    rfl

theorem singleton_getElem? {x y : Worker} {w : Nat} (h : [x][w]? = some y) : w = 0 ∧ y = x := by
  cases w with
  | zero =>
    simp only [List.getElem?_cons_zero, Option.some.injEq] at h
    exact ⟨rfl, h.symm⟩
  | succ j => simp at h

theorem step_outer {s s1 : State ω} (e : Event) (hs : step s e = some s1)
    (ho : s1.outer = none) : s.outer = none := by
  cases e <;> simp only [step] at hs <;> split at hs <;>
    first
    | (cases hs; first | exact ho | cases ho)
    | cases hs
    | (split at hs <;> first | (cases hs; exact ho) | cases hs)

theorem run_outer : ∀ (es : List Event) {s s1 : State ω}, run s es = some s1 →
    s1.outer = none → s.outer = none := by
  intro es
  induction es with
  | nil => intro s s1 hr ho; cases hr; exact ho
  | cons e es ih =>
    intro s s1 hr ho
    simp only [run] at hr
    cases hst : step s e with
    | none => rw [hst] at hr; cases hr
    | some s2 =>
      rw [hst] at hr
      exact step_outer e hst (ih hr ho)

theorem step_seq {h1 : Hasher ω} {urls : List String} {n : Nat} {s s1 : State ω} (e : Event)
    (inv : Inv h1 urls n s) (hseq : Seq s) (hs : step s e = some s1) (ho : s1.outer = none) :
    Seq s1 := by
  have inv1 := step_inv e inv hs
  obtain ⟨x, hx, hm⟩ := hseq
  cases e with
  | cancel err =>
    simp only [step] at hs
    split at hs
    · cases hs; cases ho
    · cases hs
  | recv w =>
    simp only [step] at hs
    split at hs
    · rename_i url hd hu hw
      cases hs
      rw [hx] at hw
      obtain ⟨rfl, rfl⟩ := singleton_getElem? hw
      refine ⟨.fetching s.next url, by simp [hx], ?_⟩
      simp only at hm ⊢
      refine ⟨trivial, ?_⟩
      rw [List.map_append, hm]
      rfl
    · cases hs
  | fetched w t =>
    simp only [step] at hs
    split at hs
    · rename_i pos url hw
      cases hs
      rw [hx] at hw
      obtain ⟨rfl, rfl⟩ := singleton_getElem? hw
      refine ⟨.calling pos url, by simp [hx], ?_⟩
      simp only at hm ⊢
      refine ⟨hm.1, ?_⟩
      rw [List.map_append, hm.2, List.append_assoc]
      rfl
    · cases hs
  | done w =>
    simp only [step] at hs
    split at hs
    · rename_i pos url hw
      cases hs
      rw [hx] at hw
      obtain ⟨rfl, rfl⟩ := singleton_getElem? hw
      refine ⟨.idle, by simp [hx], ?_⟩
      simp only at hm ⊢
      rw [List.map_append, hm.2, List.append_assoc, ← hm.1, sequential_succ]
      rfl
    · cases hs
  | stop w =>
    simp only [step] at hs
    split at hs
    · rename_i c hc hw
      cases hs
      rw [hx] at hw
      obtain ⟨rfl, rfl⟩ := singleton_getElem? hw
      exact ⟨.exited, by simp [hx], hm⟩
    · cases hs
  | eof w =>
    simp only [step] at hs
    split at hs
    · rename_i hc hw
      cases hs
      rw [hx] at hw
      obtain ⟨rfl, rfl⟩ := singleton_getElem? hw
      exact ⟨.exited, by simp [hx], hm⟩
    · cases hs
  | wake =>
    simp only [step] at hs
    split at hs
    · cases hs; exact ⟨x, hx, hm⟩
    · cases hs
  | drain =>
    have ha := inv1.hAbs ho
    simp only [step] at hs
    split at hs
    · cases hs
      simp at ha
    · cases hs
  | drainEnd =>
    simp only [step] at hs
    split at hs
    · cases hs; exact ⟨x, hx, hm⟩
    · cases hs
  | close =>
    simp only [step] at hs
    split at hs
    · split at hs
      · cases hs; exact ⟨x, hx, hm⟩
      · cases hs
    · cases hs
  | wait =>
    simp only [step] at hs
    split at hs
    · split at hs
      · cases hs; exact ⟨x, hx, hm⟩
      · cases hs
    · cases hs
  | ret =>
    simp only [step] at hs
    split at hs
    · cases hs; exact ⟨x, hx, hm⟩
    · cases hs

theorem run_seq {h1 : Hasher ω} {urls : List String} {n : Nat} :
    ∀ (es : List Event) {s s1 : State ω}, Inv h1 urls n s → Seq s → run s es = some s1 →
      s1.outer = none → Seq s1 := by
  intro es
  induction es with
  | nil => intro s s1 _ hseq hr _; cases hr; exact hseq
  | cons e es ih =>
    intro s s1 inv hseq hr ho
    simp only [run] at hr
    cases hst : step s e with
    | none => rw [hst] at hr; cases hr
    | some s2 =>
      rw [hst] at hr
      exact ih (step_inv e inv hst) (step_seq e inv hseq hst (run_outer es hr ho)) hr ho

theorem Start_seq (h : Hasher ω) (urls : List String) (hp : h.Parallel = 1) :
    Seq (Start h urls) := by
  have hpar : (withDefault h).Parallel = h.Parallel := by
    unfold withDefault; split <;> rfl
  refine ⟨.idle, ?_, ?_⟩
  · simp [Start, hpar, hp]
  · simp [Start, hpar, hp, sequential]

/-- C7: with `Parallel = 1` and no cancellation of the caller's context, the
run is strictly sequential. At every moment the trace is a prefix of: fetch
of `urls[0]`, its callback, the return of that callback, fetch of `urls[1]`,
and so on; so no fetch begins before the previous callback has returned. When
`Start` has returned the trace is that whole sequence and the URLs passed to
`OnDone`, in invocation order, are `urls`. -/
theorem Start_sequential_when_one_worker (h : Hasher ω) (urls : List String)
    (es : List Event) (s : State ω) (hp : h.Parallel = 1)
    (hrun : run (Start h urls) es = some s) (hnc : s.outer = none) :
    s.trace.map Obs.phase <+: sequential urls.length
    ∧ (∀ r, s.disp = .returned r →
        s.trace.map Obs.phase = sequential urls.length
        ∧ (calls s.trace).map Args.url = urls
        ∧ invokedPos s.trace = List.range urls.length) := by
  have inv := run_Start_inv h urls es s (by omega) hrun
  have hseq := run_seq es (Start_inv h urls (by omega)) (Start_seq h urls hp) hrun hnc
  obtain ⟨x, hx, hm⟩ := hseq
  have hn := inv.hNext
  constructor
  · cases x with
    | idle => simp only at hm; rw [hm]; exact sequential_mono hn
    | exited => simp only at hm; rw [hm]; exact sequential_mono hn
    | fetching p u =>
      simp only at hm
      rw [hm.2]
      have h1 : sequential p ++ [Phase.fetch p] <+: sequential (p + 1) := by
        rw [sequential_succ]
        exact (List.prefix_append_right_inj _).2 ⟨[.onDone p, .onDoneRet p], rfl⟩
      exact h1.trans (sequential_mono (by omega))
    | calling p u =>
      simp only at hm
      rw [hm.2]
      have h1 : sequential p ++ [Phase.fetch p, Phase.onDone p] <+: sequential (p + 1) := by
        rw [sequential_succ]
        exact (List.prefix_append_right_inj _).2 ⟨[.onDoneRet p], rfl⟩
      exact h1.trans (sequential_mono (by omega))
  · intro r hr
    have hall := inv.hAll (Or.inr ⟨r, hr⟩) x (by rw [hx]; simp)
    subst hall
    simp only at hm
    have hnext : s.next = urls.length := inv.hClosedNext (by rw [hr]; simp)
    rw [hnext] at hm
    have hpos : invokedPos s.trace = List.range urls.length := by
      rw [invokedPos_eq_phase, hm, invoked_sequential]
    refine ⟨hm, ?_, hpos⟩
    rw [calls_url urls _ s.trace inv.hTrUrl, hpos, map_getD_range]


/-- Every per-URL context of the trace was derived with the hasher's timeout. -/
theorem step_timeout {s s1 : State ω} (e : Event) (hs : step s e = some s1)
    (ht : ∀ p u t, Obs.fetch p u t ∈ s.trace → t = s.h.FetchTimeout) :
    s1.h = s.h ∧ ∀ p u t, Obs.fetch p u t ∈ s1.trace → t = s1.h.FetchTimeout := by
  cases e with
  | cancel err =>
    simp only [step] at hs
    split at hs
    · cases hs; exact ⟨rfl, ht⟩
    · cases hs
  | recv w =>
    simp only [step] at hs
    split at hs
    · cases hs
      refine ⟨rfl, ?_⟩
      intro p u t hm
      rcases List.mem_append.1 hm with hm | hm
      · exact ht p u t hm
      · simp only [List.mem_singleton] at hm
        injection hm with _ _ h3
    · cases hs
  | fetched w t =>
    simp only [step] at hs
    split at hs
    · cases hs
      refine ⟨rfl, ?_⟩
      intro p u t hm
      rcases List.mem_append.1 hm with hm | hm
      · exact ht p u t hm
      · simp at hm
    · cases hs
  | done w =>
    simp only [step] at hs
    split at hs
    · cases hs
      refine ⟨rfl, ?_⟩
      intro p u t hm
      rcases List.mem_append.1 hm with hm | hm
      · exact ht p u t hm
      · simp at hm
    · cases hs
  | stop w =>
    simp only [step] at hs
    split at hs
    · cases hs; exact ⟨rfl, ht⟩
    · cases hs
  | eof w =>
    simp only [step] at hs
    split at hs
    · cases hs; exact ⟨rfl, ht⟩
    · cases hs
  | wake =>
    simp only [step] at hs
    split at hs
    · cases hs; exact ⟨rfl, ht⟩
    · cases hs
  | drain =>
    simp only [step] at hs
    split at hs
    · cases hs; exact ⟨rfl, ht⟩
    · cases hs
  | drainEnd =>
    simp only [step] at hs
    split at hs
    · cases hs; exact ⟨rfl, ht⟩
    · cases hs
  | close =>
    simp only [step] at hs
    split at hs
    · split at hs
      · cases hs; exact ⟨rfl, ht⟩
      · cases hs
    · cases hs
  | wait =>
    simp only [step] at hs
    split at hs
    · split at hs
      · cases hs; exact ⟨rfl, ht⟩
      · cases hs
    · cases hs
  | ret =>
    simp only [step] at hs
    split at hs
    · cases hs; exact ⟨rfl, ht⟩
    · cases hs

theorem run_timeout : ∀ (es : List Event) {s s1 : State ω}, run s es = some s1 →
    (∀ p u t, Obs.fetch p u t ∈ s.trace → t = s.h.FetchTimeout) →
    s1.h = s.h ∧ ∀ p u t, Obs.fetch p u t ∈ s1.trace → t = s1.h.FetchTimeout := by
  intro es
  induction es with
  | nil => intro s s1 hr ht; cases hr; exact ⟨rfl, ht⟩
  | cons e es ih =>
    intro s s1 hr ht
    simp only [run] at hr
    cases hst : step s e with
    | none => rw [hst] at hr; cases hr
    | some s2 =>
      rw [hst] at hr
      have h2 := step_timeout e hst ht
      have h3 := ih hr h2.2
      exact ⟨h3.1.trans h2.1, h3.2⟩

theorem Start_h (h : Hasher ω) (urls : List String) : (Start h urls).h = withDefault h := by
  simp only [Start]
  split <;> rfl

theorem Start_trace (h : Hasher ω) (urls : List String) : (Start h urls).trace = [] := by
  simp only [Start]
  split <;> rfl

theorem withDefault_idem (h : Hasher ω) : withDefault (withDefault h) = withDefault h := by
  unfold withDefault
  by_cases h0 : h.FetchTimeout = 0
  · simp [h0, DefaultFetchTimeout]
  · simp [h0]

/-- C8: `Start` replaces a zero `FetchTimeout` by `DefaultFetchTimeout`, which
is 60 seconds, before any worker starts, and leaves a non-zero one as it is;
every per-URL context of the call is derived with the resulting timeout, so
with 60 seconds when the field was zero; `Parallel` and `OnDone` are not
changed; a further `Start` on the same hasher does not change it again. -/
theorem Start_sets_default_timeout (h : Hasher ω) (urls : List String) (es : List Event)
    (s : State ω) (hrun : run (Start h urls) es = some s) :
    s.h.FetchTimeout = (if h.FetchTimeout = 0 then DefaultFetchTimeout else h.FetchTimeout)
    ∧ DefaultFetchTimeout = 60 * 1000000000
    ∧ ((Start h urls).h = s.h ∧ (Start h urls).trace = [])
    ∧ (∀ p u t, Obs.fetch p u t ∈ s.trace → t = s.h.FetchTimeout)
    ∧ (h.FetchTimeout = 0 → ∀ p u t, Obs.fetch p u t ∈ s.trace → t = 60 * 1000000000)
    ∧ s.h.Parallel = h.Parallel
    ∧ s.h.OnDone = h.OnDone
    ∧ (∀ urls2, (Start s.h urls2).h = s.h) := by
  have h0 : ∀ p u t, Obs.fetch p u t ∈ (Start h urls).trace → t = (Start h urls).h.FetchTimeout := by
    intro p u t hm
    rw [Start_trace] at hm
    cases hm
  obtain ⟨hh, ht⟩ := run_timeout es hrun h0
  rw [Start_h] at hh
  have hto : s.h.FetchTimeout
      = (if h.FetchTimeout = 0 then DefaultFetchTimeout else h.FetchTimeout) := by
    rw [hh]; unfold withDefault; split <;> rfl
  refine ⟨hto, by decide, ⟨by rw [Start_h, hh], Start_trace h urls⟩, ht, ?_, ?_, ?_, ?_⟩
  · intro hz p u t hm
    rw [ht p u t hm, hto, if_pos hz]
    decide
  · rw [hh]; unfold withDefault; split <;> rfl
  · rw [hh]; unfold withDefault; split <;> rfl
  · intro urls2
    rw [Start_h, hh, withDefault_idem]

/-- C10: with `Parallel = 0`, a non-empty URL list and no cancellation of the
caller's context, nothing ever happens: there is no worker, the feed loop is
blocked on its first send, no event but a cancellation is possible, so no
callback is invoked and `Start` has not returned. -/
theorem Start_blocks_without_workers (h : Hasher ω) (urls : List String) (es : List Event)
    (s : State ω) (hp : h.Parallel = 0) (hne : urls ≠ [])
    (hrun : run (Start h urls) es = some s) (hnc : s.outer = none) :
    es = []
    ∧ s.workers = []
    ∧ s.trace = []
    ∧ calls s.trace = []
    ∧ (s.disp = .sending ∧ s.next = 0)
    ∧ (∀ r, s.disp ≠ .returned r)
    ∧ (∀ e, (∀ c, e ≠ .cancel c) → step s e = none) := by
  have hpar : (withDefault h).Parallel = h.Parallel := by
    unfold withDefault; split <;> rfl
  have hs : Start h urls =
      { h := withDefault h, urls := urls, outer := none, ctx := none, disp := .sending, next := 0,
        workers := [], drainer := .waiting, absorbed := [], trace := [] } := by
    simp [Start, hpar, hp]
  have hlen : urls.length ≠ 0 := fun hl => hne (List.length_eq_zero.1 hl)
  have hblocked : ∀ e, (∀ c, e ≠ .cancel c) → step (Start h urls) e = none := by
    intro e hc
    rw [hs]
    cases e with
    | cancel c => exact absurd rfl (hc c)
    | close => simp only [step]; rw [if_neg (fun hx => hlen hx.symm)]
    | _ => simp [step, Disp.closed]
  have hes : es = [] := by
    cases es with
    | nil => rfl
    | cons e es =>
      exfalso
      simp only [run] at hrun
      cases hst : step (Start h urls) e with
      | none => rw [hst] at hrun; cases hrun
      | some s2 =>
        rw [hst] at hrun
        have ho2 := run_outer es hrun hnc
        cases e with
        | cancel c =>
          simp only [step] at hst
          split at hst
          · cases hst; cases ho2
          · cases hst
        | _ => rw [hblocked _ (by simp)] at hst; cases hst
  subst hes
  cases hrun
  refine ⟨rfl, by rw [hs], by rw [hs], by rw [hs]; rfl, by rw [hs]; exact ⟨rfl, rfl⟩, ?_, hblocked⟩
  intro r hr
  rw [hs] at hr
  cases hr

end urlhasher

namespace cli

open urlhasher

/-- C9, as the code has it: `main` exits with 0 or 1; with 0 exactly when
`--parallel` is positive and `Start` returns nil, which it does when the
context was not cancelled during the call; with 1 exactly when `--parallel`
is not positive or `Start` returns the error of the cancelled context, as
after SIGINT or SIGTERM. -/
theorem main_exit_code (parallel : Int) (urls : List String) (es : List Event) (code : Nat)
    (hm : main parallel urls es = some code) :
    (code = 0 ∨ code = 1)
    ∧ (code = 0 ↔ 0 < parallel ∧ ∃ s,
        run (Start { Parallel := parallel, FetchTimeout := 0, OnDone := onDone } urls) es = some s
        ∧ s.disp = .returned none ∧ s.outer = none)
    ∧ (code = 1 ↔ parallel ≤ 0 ∨ ∃ s err,
        run (Start { Parallel := parallel, FetchTimeout := 0, OnDone := onDone } urls) es = some s
        ∧ s.disp = .returned (some err) ∧ s.outer = some err) := by
  unfold main at hm
  by_cases hp : parallel ≤ 0
  · rw [if_pos hp] at hm
    cases hm
    refine ⟨Or.inr rfl, ?_, ?_⟩
    · constructor
      · intro h; cases h
      · intro h; omega
    · exact ⟨fun _ => Or.inl hp, fun _ => rfl⟩
  · rw [if_neg hp] at hm
    cases hrun : run (Start { Parallel := parallel, FetchTimeout := 0, OnDone := onDone } urls) es with
    | none => rw [hrun] at hm; cases hm
    | some s =>
      rw [hrun] at hm
      simp only at hm
      have inv := run_Start_inv { Parallel := parallel, FetchTimeout := 0, OnDone := onDone }
        urls es s (by show (0 : Int) ≤ parallel; omega) hrun
      cases hd : s.disp with
      | returned r =>
        rw [hd] at hm
        have hout := (inv.hRet r hd).1
        cases r with
        | none =>
          cases hm
          refine ⟨Or.inl rfl, ?_, ?_⟩
          · exact ⟨fun _ => ⟨by omega, s, rfl, hd, hout.symm⟩, fun _ => rfl⟩
          · constructor
            · intro h; cases h
            · rintro (h | ⟨s2, err, h1, h2, _⟩)
              · exact absurd h hp
              · cases h1
                rw [hd] at h2
                cases h2
        | some err =>
          cases hm
          refine ⟨Or.inr rfl, ?_, ?_⟩
          · constructor
            · intro h; cases h
            · rintro ⟨_, s2, h1, h2, _⟩
              cases h1
              rw [hd] at h2
              cases h2
          · exact ⟨fun _ => Or.inr ⟨s, err, rfl, hd, hout.symm⟩, fun _ => rfl⟩
      | sending => rw [hd] at hm; cases hm
      | waiting => rw [hd] at hm; cases hm
      | waited => rw [hd] at hm; cases hm
      | panicked => rw [hd] at hm; cases hm

end cli

/-! ## Concrete runs -/

namespace urlhasher

/-- A response whose body fails after three bytes: the callback gets a nil
hash and the read error. -/
theorem fetchIndividualURL_hash_xor_err_witness :
    fetchIndividualURL "http://a" (.response 200
        [{ data := [104, 116, 116], err := none },
         { data := [112], err := some (.failed "unexpected EOF") }])
      = { url := "http://a", hash := none,
          err := some "could hash HTTP response: unexpected EOF" }
    ∧ ((fetchIndividualURL "http://a" (.response 200
        [{ data := [104, 116, 116], err := none },
         { data := [112], err := some (.failed "unexpected EOF") }])).hash = none
      ∧ (fetchIndividualURL "http://a" (.response 200
        [{ data := [104, 116, 116], err := none },
         { data := [112], err := some (.failed "unexpected EOF") }])).err ≠ none) :=
  ⟨by decide,
   (fetchIndividualURL_hash_xor_err "http://a" (.response 200
        [{ data := [104, 116, 116], err := none },
         { data := [112], err := some (.failed "unexpected EOF") }])).2.2.2.2 200 _
      "unexpected EOF" rfl (by decide)⟩

/-- Two workers, two URLs, the second URL finishes first: both callbacks
fire, in the other order. -/
theorem Start_calls_OnDone_once_per_url_witness :
    ∃ s : State cli.Out,
      run (Start { Parallel := 2, FetchTimeout := 0, OnDone := cli.onDone } ["http://a", "http://b"])
        [.recv 1, .recv 0, .fetched 0 (.noResponse "refused"), .done 0,
         .fetched 1 (.badRequest "bad"), .done 1, .close, .eof 0, .eof 1, .wait, .ret] = some s
      ∧ s.outer = none ∧ s.disp = .returned none
      ∧ (calls s.trace).map Args.url = ["http://b", "http://a"]
      ∧ ((calls s.trace).map Args.url).Perm ["http://a", "http://b"] :=
  ⟨(run (Start { Parallel := 2, FetchTimeout := 0, OnDone := cli.onDone } ["http://a", "http://b"])
        [.recv 1, .recv 0, .fetched 0 (.noResponse "refused"), .done 0,
         .fetched 1 (.badRequest "bad"), .done 1, .close, .eof 0, .eof 1, .wait, .ret]).get
      (by decide),
    (Option.some_get _).symm, by decide, by decide, by decide,
    (Start_calls_OnDone_once_per_url _ _ _ _ none (by decide) (Option.some_get _).symm
      (by decide) (by decide)).2.1⟩

/-- Every callback of the run gets an error and `Start` still returns nil. -/
theorem Start_returns_nil_when_not_cancelled_witness :
    ∃ s : State cli.Out,
      run (Start { Parallel := 1, FetchTimeout := 0, OnDone := cli.onDone } ["http://a", "http://b"])
        [.recv 0, .fetched 0 (.noResponse "refused"), .done 0, .recv 0,
         .fetched 0 (.badRequest "bad"), .done 0, .close, .eof 0, .wait, .ret] = some s
      ∧ s.outer = none ∧ s.disp = .returned none
      ∧ (calls s.trace).map Args.hash = [none, none]
      ∧ (∀ r, s.disp = .returned r → r = none) :=
  ⟨(run (Start { Parallel := 1, FetchTimeout := 0, OnDone := cli.onDone } ["http://a", "http://b"])
        [.recv 0, .fetched 0 (.noResponse "refused"), .done 0, .recv 0,
         .fetched 0 (.badRequest "bad"), .done 0, .close, .eof 0, .wait, .ret]).get
      (by decide),
    (Option.some_get _).symm, by decide, by decide, by decide,
    (Start_returns_nil_when_not_cancelled _ _ _ _ (by decide) (Option.some_get _).symm
      (by decide)).1⟩

/-- The context is cancelled while the first URL is fetched: the worker's
callback still fires, the drainer takes the second URL, `Start` returns
`context.Canceled`. -/
theorem Start_cancelled_witness :
    ∃ s : State cli.Out,
      run (Start { Parallel := 1, FetchTimeout := 0, OnDone := cli.onDone } ["http://a", "http://b"])
        [.recv 0, .cancel .Canceled, .fetched 0 (.noResponse "context canceled"), .done 0,
         .stop 0, .wake, .drain, .close, .drainEnd, .wait, .ret] = some s
      ∧ s.outer ≠ none ∧ s.disp = .returned (some .Canceled) ∧ s.absorbed = [1]
      ∧ (calls s.trace).map Args.url = ["http://a"]
      ∧ (∀ r, s.disp = .returned r → r ≠ none ∧ r = s.outer) :=
  ⟨(run (Start { Parallel := 1, FetchTimeout := 0, OnDone := cli.onDone } ["http://a", "http://b"])
        [.recv 0, .cancel .Canceled, .fetched 0 (.noResponse "context canceled"), .done 0,
         .stop 0, .wake, .drain, .close, .drainEnd, .wait, .ret]).get
      (by decide),
    (Option.some_get _).symm, by decide, by decide, by decide, by decide,
    (Start_cancelled _ _ _ _ (by decide) (Option.some_get _).symm (by decide)).1⟩

/-- Two workers, three URLs: with both workers busy two fetches are in flight
and the third URL has not left the feed loop. -/
theorem inFlight_le_Parallel_witness :
    ∃ s : State cli.Out,
      run (Start { Parallel := 2, FetchTimeout := 0, OnDone := cli.onDone }
        ["http://a", "http://b", "http://c"]) [.recv 0, .recv 1] = some s
      ∧ inFlight s = 2 ∧ s.next = 2 ∧ step s (.recv 0) = none ∧ step s (.recv 1) = none
      ∧ (inFlight s : Int) ≤ 2 :=
  ⟨(run (Start { Parallel := 2, FetchTimeout := 0, OnDone := cli.onDone }
        ["http://a", "http://b", "http://c"]) [.recv 0, .recv 1]).get (by decide),
    (Option.some_get _).symm, by decide, by decide, rfl, rfl,
    (inFlight_le_Parallel _ _ _ _ (by decide) (Option.some_get _).symm).1⟩

/-- One worker, two URLs: the callbacks come in input order. -/
theorem Start_sequential_when_one_worker_witness :
    ∃ s : State cli.Out,
      run (Start { Parallel := 1, FetchTimeout := 0, OnDone := cli.onDone } ["http://a", "http://b"])
        [.recv 0, .fetched 0 (.noResponse "refused"), .done 0, .recv 0,
         .fetched 0 (.badRequest "bad"), .done 0, .close, .eof 0, .wait, .ret] = some s
      ∧ s.outer = none ∧ s.disp = .returned none
      ∧ s.trace.map Obs.phase
          = [.fetch 0, .onDone 0, .onDoneRet 0, .fetch 1, .onDone 1, .onDoneRet 1]
      ∧ (calls s.trace).map Args.url = ["http://a", "http://b"] :=
  ⟨(run (Start { Parallel := 1, FetchTimeout := 0, OnDone := cli.onDone } ["http://a", "http://b"])
        [.recv 0, .fetched 0 (.noResponse "refused"), .done 0, .recv 0,
         .fetched 0 (.badRequest "bad"), .done 0, .close, .eof 0, .wait, .ret]).get
      (by decide),
    (Option.some_get _).symm, by decide, by decide, by decide,
    ((Start_sequential_when_one_worker _ _ _ _ rfl (Option.some_get _).symm
      (by decide)).2 none (by decide)).2.1⟩

/-- A hasher with a zero `FetchTimeout`: the first fetch is derived with 60 s. -/
theorem Start_sets_default_timeout_witness :
    ∃ s : State cli.Out,
      run (Start { Parallel := 1, FetchTimeout := 0, OnDone := cli.onDone } ["http://a"])
        [.recv 0] = some s
      ∧ s.trace = [.fetch 0 "http://a" 60000000000]
      ∧ s.h.FetchTimeout = (if (0 : Int) = 0 then DefaultFetchTimeout else 0) :=
  ⟨(run (Start { Parallel := 1, FetchTimeout := 0, OnDone := cli.onDone } ["http://a"])
        [.recv 0]).get (by decide),
    (Option.some_get _).symm, by decide,
    (Start_sets_default_timeout _ _ _ _ (Option.some_get _).symm).1⟩

/-- No worker and one URL: the initial state is the only one, every event
but a cancellation is impossible in it. -/
theorem Start_blocks_without_workers_witness :
    (0 : Int) = 0 ∧ ["http://a"] ≠ ([] : List String)
    ∧ (Start { Parallel := 0, FetchTimeout := 0, OnDone := cli.onDone } ["http://a"]).outer = none
    ∧ (∀ e, (∀ c, e ≠ .cancel c) →
        step (Start { Parallel := 0, FetchTimeout := 0, OnDone := cli.onDone } ["http://a"]) e
          = none) :=
  ⟨rfl, by decide, rfl,
    (Start_blocks_without_workers { Parallel := 0, FetchTimeout := 0, OnDone := cli.onDone }
      ["http://a"] [] _ rfl (by decide) rfl rfl).2.2.2.2.2.2⟩

end urlhasher

namespace cli

open urlhasher

/-- C9 fails as stated: a signal while the only URL is being sent cancels the
context, the worker and the drainer finish cleanly, `Start` returns
`context.Canceled`, and `main` exits with 1, not 0. -/
theorem main_exits_1_on_signal :
    (run (Start { Parallel := 1, FetchTimeout := 0, OnDone := onDone } ["http://a"])
        [.cancel .Canceled, .stop 0, .wake, .drain, .close, .drainEnd, .wait, .ret]).map
      (fun s => (s.outer, s.disp, s.workers, s.drainer))
      = some (some .Canceled, .returned (some .Canceled), [.exited], .exited)
    ∧ main 1 ["http://a"] [.cancel .Canceled, .stop 0, .wake, .drain, .close, .drainEnd, .wait, .ret]
      = some 1
    ∧ main 1 ["http://a"] [.cancel .Canceled, .stop 0, .wake, .drain, .close, .drainEnd, .wait, .ret]
      ≠ some 0 := by
  decide

/-- A run without a signal exits with 0, and the context was not cancelled. -/
theorem main_exit_code_witness :
    main 1 ["http://a"]
        [.recv 0, .fetched 0 (.noResponse "refused"), .done 0, .close, .eof 0, .wait, .ret] = some 0
    ∧ ((0 : Nat) = 0 ↔ (0 : Int) < 1 ∧ ∃ s,
        run (Start { Parallel := 1, FetchTimeout := 0, OnDone := onDone } ["http://a"])
          [.recv 0, .fetched 0 (.noResponse "refused"), .done 0, .close, .eof 0, .wait, .ret]
          = some s
        ∧ s.disp = .returned none ∧ s.outer = none) :=
  ⟨by decide,
    (main_exit_code 1 ["http://a"]
      [.recv 0, .fetched 0 (.noResponse "refused"), .done 0, .close, .eof 0, .wait, .ret] 0
      (by decide)).2.1⟩

end cli
